import Mathlib

/-!
Verification of the bitplanning core: a shallow embedding of `bitmask.py`
and `domain.py` (the ternary bit-state algebra, compiled domains with
constraint propagation, action pools and sequences, and the best-first
regression search loop), together with theorems settling the specification
claims about it.

Conventions of the embedding:
* Python unbounded nonnegative integers become `Nat`; the expression
  `a & ~b` (which is nonnegative whenever `a` is) becomes `andNot a b`.
* Methods that can raise an exception (or fail an `assert`) return
  `Option`/`Except`; `none`/`.error` is the raising outcome.
* Python truthiness of an integer result is spelled out as `≠ 0`.
-/

set_option maxRecDepth 10000
set_option autoImplicit false

/-- Bitwise "and not" on `Nat`: the bits of `a` that are not set in `b`.
This encodes the Python expression `a & ~b` for nonnegative `a`,
using the identity `a & ~b = a ^ (a & b)`. -/
def andNot (a b : Nat) : Nat := a ^^^ (a &&& b)

/-- A `BitMask` (the spec calls it a BitState) is a ternary bit vector:
`bits` holds the values, `mask` tells which positions are known, and
`width` is the number of positions. -/
structure BitMask where
  bits : Nat
  mask : Nat
  width : Nat
deriving DecidableEq, Repr

namespace BitMask

/-- The constructor `BitMask.__init__`: it stores `bits & mask` (so no value
bit outside the mask survives), the mask, and the width. -/
def make (bits mask width : Nat) : BitMask := ⟨bits &&& mask, mask, width⟩

/-- Class method `BitMask.null`: the all-unknown value of a given width. -/
def null (width : Nat) : BitMask := make 0 0 width

/-- Method `conflicts`: the set (as a number) of positions known in both
arguments where the values disagree.  Python treats the result as a
boolean, so "conflict" means the result is nonzero. -/
def conflicts (a other : BitMask) : Nat :=
  let mask := a.mask &&& other.mask
  let my_bits := a.bits &&& mask
  let other_bits := other.bits &&& mask
  my_bits ^^^ other_bits

/-- Method `add`: set one bit (at position `pos`, itself a power of two) to
the value `bit`.  Without `force` it raises `IncompatibleAdd` (here: `none`)
when the bit is already known with the other value; the guard encodes
`pos & self._bits != (pos & (~0 if bit else 0))`. -/
def add (a : BitMask) (pos : Nat) (bit : Bool) (force : Bool) : Option BitMask :=
  if !force && (pos &&& a.mask != 0) && ((pos &&& a.bits) != (if bit then pos else 0)) then
    none
  else
    some (make (if bit then a.bits ||| pos else andNot a.bits pos) (a.mask ||| pos) a.width)

/-- Method `is_set`: the (truthy) overlap of the mask with `pos`. -/
def is_set (a : BitMask) (pos : Nat) : Nat := a.mask &&& pos

/-- Method `all_set`: every position below the width is known. -/
def all_set (a : BitMask) : Bool :=
  (List.range a.width).all (fun i => a.mask &&& (1 <<< i) != 0)

/-- Method `count_set`: how many positions below the width are known. -/
def count_set (a : BitMask) : Nat :=
  (List.range a.width).foldl (fun count i => if a.mask &&& (1 <<< i) != 0 then count + 1 else count) 0

/-- Method `is_null`: no position is known. -/
def is_null (a : BitMask) : Bool := a.mask == 0

/-- Method `known_and_matches`: the bit at `pos` is known and equals `bit`. -/
def known_and_matches (a : BitMask) (pos : Nat) (bit : Bool) : Bool :=
  if a.mask &&& pos == 0 then false
  else if bit then a.bits &&& pos != 0
  else a.bits &&& pos == 0

/-- Method `accomplishes_something`: positions known in both where our value
equals the goal's value (the code xors with the complemented goal bits,
`(~goal._bits) & mask` being `andNot mask goal.bits`).  Truthy when nonzero. -/
def accomplishes_something (a goal : BitMask) : Nat :=
  let mask := a.mask &&& goal.mask
  let my_bits := a.bits &&& mask
  let goal_bits := andNot mask goal.bits
  my_bits ^^^ goal_bits

/-- The value `unset_from_action` builds: drop from our mask every position
the `action_then` mask sets (`self._mask & ~action_then._mask`). -/
def unsetCore (a action_then : BitMask) : BitMask :=
  make a.bits (andNot a.mask action_then.mask) a.width

/-- Method `unset_from_action`: without `force` it asserts that we do not
conflict with `action_then` (here: `none` on violation). -/
def unset_from_action (a action_then : BitMask) (force : Bool) : Option BitMask :=
  if !force && a.conflicts action_then != 0 then none
  else some (unsetCore a action_then)

/-- Method `difference`: keep our bits, with the mask holding positions known
in both where the values differ. -/
def difference (a other : BitMask) : BitMask :=
  let mask := a.mask &&& other.mask
  let diff := (a.bits &&& mask) ^^^ (other.bits &&& mask)
  make a.bits diff a.width

/-- Method `without_matching`: drop the positions whose value matches
`other`'s; `other._bits ^ ~self._bits` is `~(other._bits ^ self._bits)`,
so the matching mask is `andNot (mask ∩ other.mask) (other.bits ^^^ a.bits)`. -/
def without_matching (a other : BitMask) : BitMask :=
  let matching_mask := andNot (a.mask &&& other.mask) (other.bits ^^^ a.bits)
  make a.bits (andNot a.mask matching_mask) a.width

/-- Method `carry_forward`: combine the masks, preferring our value and
carrying `previous`'s value on the positions we do not cover
(`self._bits & (previous._bits | ~carry)` is
`(self._bits & previous._bits) | andNot self._bits carry`). -/
def carry_forward (a previous : BitMask) : BitMask :=
  let combined_mask := previous.mask ||| a.mask
  let carry_mask := a.mask ^^^ combined_mask
  let bits0 := (a.bits &&& previous.bits) ||| andNot a.bits carry_mask
  make (bits0 ||| (previous.bits &&& carry_mask)) combined_mask a.width

/-- Method `satisfies`: every position known in `goal` is known here and the
values never conflict. -/
def satisfies (a goal : BitMask) : Bool :=
  let our := a.mask &&& goal.mask
  if our ^^^ goal.mask != 0 then false
  else a.conflicts goal == 0

/-- Method `except_satisfied_by`: turn every position that `action_results`
sets to exactly our value into an unset position
(`action_results._bits ^ ~self._bits` is `~(action_results._bits ^ self._bits)`). -/
def except_satisfied_by (a action_results : BitMask) : BitMask :=
  let satisfied := andNot (a.mask &&& action_results.mask) (action_results.bits ^^^ a.bits)
  make a.bits (andNot a.mask satisfied) a.width

/-- Method `__eq__`: compare mask, bits and width. -/
def beq (a other : BitMask) : Bool :=
  (a.mask == other.mask) && (a.bits == other.bits) && (a.width == other.width)

/-- Method `__hash__`: the hash is the `bits` payload. -/
def pyHash (a : BitMask) : Nat := a.bits

/-- Class attribute `on_names`: the letters naming a true bit. -/
def on_names : List Char := "ABCDEFGHIJKLMNOPQRSTUVWXYZ".data

/-- Class attribute `off_names`: the letters naming a false bit. -/
def off_names : List Char := "abcdefghijklmnopqrstuvwxyz".data

/-- Method `mask_str`: one character per position, the position's letter in
upper case for a true bit, lower case for a false bit, `-` for unknown. -/
def mask_str (a : BitMask) : String :=
  String.mk ((List.range a.width).map (fun i =>
    let pos := 1 <<< i
    let letter_pos := i % on_names.length
    if a.mask &&& pos != 0 then
      if a.bits &&& pos != 0 then on_names.getD letter_pos 'A'
      else off_names.getD letter_pos 'a'
    else '-'))

/-- Method `__repr__` without the angle brackets is `mask_str`; the repr
itself wraps it as `<BitMask s>`. -/
def repr_str (a : BitMask) : String :=
  "<BitMask " ++ a.mask_str ++ ">"

/-- Python `str.strip(c)` for a single character: remove every copy of `c`
from both ends. -/
def stripChar (c : Char) (l : List Char) : List Char :=
  ((l.dropWhile (fun x => x == c)).reverse.dropWhile (fun x => x == c)).reverse

/-- The characters Python `str.strip()` removes. -/
def isSpaceChar (c : Char) : Bool :=
  c == ' ' || c == '\t' || c == '\n' || c == '\r' || c == '\x0b' || c == '\x0c'

/-- Python `str.strip()`: remove whitespace from both ends. -/
def stripSpace (l : List Char) : List Char :=
  ((l.dropWhile isSpaceChar).reverse.dropWhile isSpaceChar).reverse

/-- The character loop of `from_string`, position `i` onward: `-` leaves the
position unknown, an upper-case ASCII letter sets a true bit, a lower-case
ASCII letter a false bit, and anything else raises. Returns `(bits, mask)`. -/
def parseChars : List Char → Nat → Option (Nat × Nat)
  | [], _ => some (0, 0)
  | c :: cs, i =>
    match parseChars cs (i + 1) with
    | none => none
    | some (bits, mask) =>
      if c == '-' then some (bits, mask)
      else if 65 ≤ c.toNat && c.toNat ≤ 90 then some (bits ||| (1 <<< i), mask ||| (1 <<< i))
      else if 97 ≤ c.toNat && c.toNat ≤ 122 then some (bits, mask ||| (1 <<< i))
      else none

/-- Class method `from_string`: strip `<`, then `>`, drop a leading
`BitMask ` tag, strip whitespace, then decode the characters; the width is
the length of what remains. -/
def from_string (s : String) : Option BitMask :=
  let l0 := stripChar '>' (stripChar '<' s.data)
  let l1 := if "BitMask ".data.isPrefixOf l0 then l0.drop 8 else l0
  let l := stripSpace l1
  (parseChars l 0).map (fun bm => make bm.1 bm.2 l.length)

/-- The pairwise check of `all_union`: every pair of distinct items must be
conflict free and of equal width (the code raises on the first violation). -/
def pairwiseOk : List BitMask → Bool
  | [] => true
  | item :: rest =>
    rest.all (fun other => (item.conflicts other == 0) && (item.width == other.width)) &&
      pairwiseOk rest

/-- The accumulation loop of `all_union` over the items, carrying the
`bits` and `mask` variables: `mask |= item.mask`,
`bits |= item.mask & item.bits`, `bits &= ~(item.mask & ~item.bits)`
(the last line clears the positions the item knows to be false). -/
def unionFoldGo : List BitMask → Nat → Nat → Nat × Nat
  | [], bits, mask => (bits, mask)
  | item :: rest, bits, mask =>
    unionFoldGo rest
      (andNot (bits ||| (item.mask &&& item.bits)) (andNot item.mask item.bits))
      (mask ||| item.mask)

/-- The accumulation loop of `all_union` started at zero. -/
def unionFold (items : List BitMask) : Nat × Nat := unionFoldGo items 0 0

/-- Class method `all_union`: union of all the items.  On an empty sequence
the `width` variable is never assigned and the call fails (here: `none`);
it also raises when two items conflict or have different widths.  The width
of the result is the last item's width. -/
def all_union (items : List BitMask) : Option BitMask :=
  match items.getLast? with
  | none => none
  | some last =>
    if pairwiseOk items then
      some (make (unionFold items).1 (unionFold items).2 last.width)
    else none

/-- Method `union`: the two-element `all_union`. -/
def union (a other : BitMask) : Option BitMask := all_union [a, other]

end BitMask

namespace Bitplanning

/-- A compiled action (`domain.Action` after `ConcreteDomain.__init__` has
filled in its bitmasks).  `id` is the action's position in the domain's
action list and stands for Python object identity, which the mutex sets
are keyed on. -/
structure Action where
  id : Nat
  name : String
  must_bits : BitMask
  then_bits : BitMask
deriving DecidableEq, Repr

namespace Action

/-- Method `Action.is_mutex`: the four conflict checks between the two
actions' precondition and effect bitmasks. -/
def is_mutex (a other : Action) : Bool :=
  (a.must_bits.conflicts other.must_bits != 0) ||
  (a.then_bits.conflicts other.then_bits != 0) ||
  (a.must_bits.conflicts other.then_bits != 0) ||
  (a.then_bits.conflicts other.must_bits != 0)

/-- Membership of `other` in `a.mutex`, for `other` drawn from the same
compiled domain: the mutex set excludes `a` itself (by object identity,
modelled by `id`) and contains exactly the actions mutex with `a`. -/
def in_mutex (a other : Action) : Bool :=
  (a.id != other.id) && a.is_mutex other

end Action

/-- A compiled domain as the search consumes it: the number of states
(the bit width) and the compiled actions. -/
structure Domain where
  width : Nat
  actions : List Action
deriving DecidableEq, Repr

/-- An `ActionPool`: a group of simultaneously applicable actions with the
unions of their precondition and effect bitmasks.  `GoalPool` is the
degenerate pool with no actions whose `must_bits` is the goal. -/
structure ActionPool where
  actions : List Action
  must_bits : BitMask
  then_bits : BitMask
deriving DecidableEq, Repr

/-- The assertions of `ActionPool.__init__` over every pair of distinct
members: not the same object, and neither in the other's mutex set. -/
def poolPairOk : List Action → Bool
  | [] => true
  | a :: rest =>
    rest.all (fun a2 => (a.id != a2.id) && !(a.in_mutex a2) && !(a2.in_mutex a)) &&
      poolPairOk rest

/-- Constructor `ActionPool.__init__`: check the pairwise assertions, then
compute the two aggregate unions (each of which can itself raise). -/
def mkActionPool (acts : List Action) : Option ActionPool :=
  if poolPairOk acts then
    match BitMask.all_union (acts.map (fun a => a.must_bits)) with
    | none => none
    | some mb =>
      match BitMask.all_union (acts.map (fun a => a.then_bits)) with
      | none => none
      | some tb => some ⟨acts, mb, tb⟩
  else none

/-- Constructor `GoalPool.__init__`: no actions, `must_bits` is the goal and
`then_bits` is null at the goal's width. -/
def goalPool (goal : BitMask) : ActionPool :=
  ⟨[], goal, BitMask.null goal.width⟩

/-- An `ActionSequence`: ordered pools plus the aggregate `must_bits` and
`then_bits` its constructor computes (and the domain's null it keeps). -/
structure ActionSequence where
  actions : List ActionPool
  null : BitMask
  must_bits : BitMask
  then_bits : BitMask
deriving DecidableEq, Repr

/-- The backward pass of `ActionSequence.__init__` over the reversed pool
list: assert no conflict with the accumulated requirement, drop what the
pool's effects already satisfy, assert and union in the pool's own
preconditions. -/
def seqMustFold : List ActionPool → BitMask → Option BitMask
  | [], acc => some acc
  | pool :: rest, acc =>
    if pool.then_bits.conflicts acc != 0 then none
    else
      let current := acc.except_satisfied_by pool.then_bits
      if pool.must_bits.conflicts current != 0 then none
      else
        match pool.must_bits.union current with
        | none => none
        | some u => seqMustFold rest u

/-- The forward pass of `ActionSequence.__init__`: assert no conflict of the
pool's preconditions with the accumulated state, then carry the state
forward through the pool's effects. -/
def seqThenFold : List ActionPool → BitMask → Option BitMask
  | [], acc => some acc
  | pool :: rest, acc =>
    if pool.must_bits.conflicts acc != 0 then none
    else seqThenFold rest (pool.then_bits.carry_forward acc)

/-- Constructor `ActionSequence.__init__` with the given pools and null. -/
def mkActionSequence (pools : List ActionPool) (null : BitMask) : Option ActionSequence :=
  match seqMustFold pools.reverse null with
  | none => none
  | some mb =>
    match seqThenFold pools null with
    | none => none
    | some tb => some ⟨pools, null, mb, tb⟩

namespace ActionSequence

/-- Method `with_prepend`: rebuild the sequence with the new pool first. -/
def with_prepend (seq : ActionSequence) (pool : ActionPool) : Option ActionSequence :=
  mkActionSequence (pool :: seq.actions) seq.null

/-- Method `action_count`: total number of actions inside the pools. -/
def action_count (seq : ActionSequence) : Nat :=
  (seq.actions.map (fun pool => pool.actions.length)).sum

end ActionSequence

namespace Domain

/-- Method `ConcreteDomain.strict_accomplishment_actions`: the actions whose
effects do not conflict with the goal, whose effects minus what their own
preconditions already give accomplish something, and whose preconditions
minus their own effects do not conflict with the goal. -/
def strict_accomplishment_actions (d : Domain) (goal : BitMask) : List Action :=
  d.actions.filter (fun action =>
    let important_then_bits := action.then_bits.without_matching action.must_bits
    (action.then_bits.conflicts goal == 0) &&
      (important_then_bits.accomplishes_something goal != 0) &&
      ((action.must_bits.unsetCore action.then_bits).conflicts goal == 0))

/-- The recursive generator `group_actions` inside
`strict_accomplishment_pools`, returning the yielded pools in generator
order: for the next candidate, when it is mutex free against the chosen
actions and still accomplishes something toward the remaining goal, yield
the grown pool and recurse with it, then always recurse without it. -/
def group_actions (included : List Action) (possible : List Action) (remaining : BitMask) :
    Option (List ActionPool) :=
  match possible with
  | [] => some []
  | next :: rest =>
    match
      (if included.all (fun inc => !(inc.in_mutex next)) then
        if next.then_bits.accomplishes_something remaining != 0 then
          match remaining.unset_from_action next.then_bits false with
          | none => none
          | some next_remaining =>
            match mkActionPool (included ++ [next]) with
            | none => none
            | some pool =>
              match group_actions (included ++ [next]) rest next_remaining with
              | none => none
              | some sub => some (pool :: sub)
        else some []
      else some []) with
    | none => none
    | some branch1 =>
      match group_actions included rest remaining with
      | none => none
      | some branch2 => some (branch1 ++ branch2)

/-- Method `ConcreteDomain.strict_accomplishment_pools`: assert the goal is
not null, then enumerate the pools over the strict accomplishment
candidates. -/
def strict_accomplishment_pools (d : Domain) (goal : BitMask) : Option (List ActionPool) :=
  if goal.is_null then none
  else group_actions [] (d.strict_accomplishment_actions goal) goal

/-- Method `ConcreteDomain.score_accomplishment_pool` applied to an
`ActionSequence` (as the search loop does): the 4-tuple of tie breakers.
The remaining-goal computation and the union can raise. -/
def score_accomplishment_pool (seq : ActionSequence) (goal start : BitMask) :
    Option (Nat × Nat × Nat × Nat) :=
  match goal.unset_from_action seq.then_bits false with
  | none => none
  | some remaining =>
    match BitMask.all_union [remaining, seq.must_bits] with
    | none => none
    | some u =>
      some (remaining.count_set, u.count_set, (start.difference u).count_set, seq.action_count)

end Domain

/-- Python `list.pop(i)`: the element at index `i` together with the list
without it (`none` when the index is out of range). -/
def popAt {α : Type} : List α → Nat → Option (α × List α)
  | [], _ => none
  | x :: xs, 0 => some (x, xs)
  | x :: xs, n + 1 =>
    match popAt xs n with
    | none => none
    | some (y, ys) => some (y, x :: ys)

/-- A score as `score_accomplishment_pool` returns it. -/
abbrev Score := Nat × Nat × Nat × Nat

/-- Lexicographic order on score tuples, as Python compares tuples of equal
length. -/
def scoreLe (s t : Score) : Bool :=
  if s.1 ≠ t.1 then decide (s.1 < t.1)
  else if s.2.1 ≠ t.2.1 then decide (s.2.1 < t.2.1)
  else if s.2.2.1 ≠ t.2.2.1 then decide (s.2.2.1 < t.2.2.1)
  else decide (s.2.2.2 ≤ t.2.2.2)

/-- Insert into an already sorted list, after every element whose key is
less than or equal (so sorting is stable, as Python's `list.sort`). -/
def insertSortedBy {α : Type} (le : α → α → Bool) (x : α) : List α → List α
  | [] => [x]
  | y :: ys => if le y x then y :: insertSortedBy le x ys else x :: y :: ys

/-- Stable ascending sort (`list.sort`): repeated stable insertion. -/
def sortListBy {α : Type} (le : α → α → Bool) (l : List α) : List α :=
  l.foldl (fun acc x => insertSortedBy le x acc) []

/-- Sorting of the frontier, `frontier.sort(key=lambda x: x[1])`. -/
def sortByScore (l : List (ActionSequence × Score)) : List (ActionSequence × Score) :=
  sortListBy (fun a b => scoreLe a.2 b.2) l

/-- The mutable state of one iteration of `Problem.solve`'s loop: the
frontier, the seen set (a list of the distinct `must_bits` seen, newest
first), the iteration counter, and the count of sequences skipped because
their `must_bits` had already been seen (`ProblemLog.skipped_count`). -/
structure SearchState where
  frontier : List (ActionSequence × Score)
  seen : List BitMask
  count : Nat
  skipped : Nat
deriving DecidableEq, Repr

/-- The index `Problem.solve` pops: the middle of the frontier when the seen
set is nonempty and the iteration counter is a multiple of 5, the front
otherwise (`if seen and not count % 5`). -/
def popIndex (seen : List BitMask) (count : Nat) (flen : Nat) : Nat :=
  if !seen.isEmpty && count % 5 == 0 then flen / 2 else 0

/-- What one iteration of the loop does: continue with a new state, return
a plan, report no solution (the frontier was empty), or raise
(an assertion or union conflict inside expansion). -/
inductive StepResult
  | next (s : SearchState)
  | plan (seq : ActionSequence)
  | noSolution
  | err
deriving DecidableEq, Repr

/-- Map returning `none` when the function fails anywhere (the Python list
comprehension, where an exception propagates). -/
def optMap {α β : Type} (f : α → Option β) : List α → Option (List β)
  | [] => some []
  | x :: xs =>
    match f x with
    | none => none
    | some y =>
      match optMap f xs with
      | none => none
      | some ys => some (y :: ys)

/-- One iteration of the `while frontier:` loop of `Problem.solve` (with the
interactive pause/watch branches, which only do input and output, left
out): bump the counter, pop the selected element, skip it if its
`must_bits` was seen, otherwise mark it seen and either return it as the
plan (when the start state does not conflict with its `must_bits` and its
`then_bits` satisfies the goal) or expand it, keep the unseen expansions,
and re-sort the frontier. -/
def solveStep (d : Domain) (start goal : BitMask) (s : SearchState) : StepResult :=
  match popAt s.frontier (popIndex s.seen (s.count + 1) s.frontier.length) with
  | none => .noSolution
  | some ((best, _), rest) =>
    if best.must_bits ∈ s.seen then
      .next ⟨rest, s.seen, s.count + 1, s.skipped + 1⟩
    else
      let seen2 := best.must_bits :: s.seen
      if start.conflicts best.must_bits == 0 && best.then_bits.satisfies goal then
        .plan best
      else
        match d.strict_accomplishment_pools best.must_bits with
        | none => .err
        | some pools =>
          match optMap best.with_prepend pools with
          | none => .err
          | some new_seqs =>
            let kept := new_seqs.filter (fun seq => !(decide (seq.must_bits ∈ seen2)))
            match
              optMap (fun seq =>
                (Domain.score_accomplishment_pool seq goal start).map (fun sc => (seq, sc))) kept
            with
            | none => .err
            | some scored =>
              .next ⟨sortByScore (rest ++ scored), seen2, s.count + 1, s.skipped⟩

/-- The outcome of running the loop with a fuel bound: `fuelOut` marks that
the fuel ran out before the loop finished. -/
inductive SolveOutcome
  | plan (seq : ActionSequence)
  | noSolution
  | err
  | fuelOut
deriving DecidableEq, Repr

/-- The loop of `Problem.solve`, iterated at most `fuel` times. -/
def solveLoop (d : Domain) (start goal : BitMask) : Nat → SearchState → SolveOutcome
  | 0, _ => .fuelOut
  | fuel + 1, s =>
    match solveStep d start goal s with
    | .next s2 => solveLoop d start goal fuel s2
    | .plan seq => .plan seq
    | .noSolution => .noSolution
    | .err => .err

/-- The state just before the loop starts: the frontier holds the blank
sequence (only a `GoalPool` of the goal) with its score, the seen set is
empty and both counters are zero. -/
def initState (d : Domain) (start goal : BitMask) : Option SearchState :=
  match mkActionSequence [goalPool goal] (BitMask.null d.width) with
  | none => none
  | some blank =>
    match Domain.score_accomplishment_pool blank goal start with
    | none => none
    | some sc => some ⟨[(blank, sc)], [], 0, 0⟩

/-- An upper bound on how many pools one expansion can yield. -/
def poolBound (d : Domain) : Nat := 2 ^ d.actions.length

/-- Fuel sufficient for the loop to finish (proved below): one unit per
iteration of the potential `frontier.length + poolBound * (4 ^ width -
seen.length)`, plus one. -/
def fuelBound (d : Domain) : Nat := 2 + poolBound d * 4 ^ d.width

/-- The search of `Problem.solve` run with a given fuel bound. -/
def solveWith (d : Domain) (start goal : BitMask) (fuel : Nat) : SolveOutcome :=
  match initState d start goal with
  | none => .err
  | some s => solveLoop d start goal fuel s

/-- Method `Problem.solve` on a compiled domain, start state and goal: the
loop run with fuel `fuelBound`, which the termination theorem shows is
never exhausted. -/
def solve (d : Domain) (start goal : BitMask) : SolveOutcome :=
  solveWith d start goal (fuelBound d)

/-- The search state after `n` iterations of the loop (`none` when the run
errored, returned, or reported no solution strictly before that). -/
def runState (d : Domain) (start goal : BitMask) : Nat → Option SearchState
  | 0 => initState d start goal
  | n + 1 =>
    match runState d start goal n with
    | none => none
    | some s =>
      match solveStep d start goal s with
      | .next s2 => some s2
      | _ => none

/-- A `domain.Constraint` as the parser hands it to `ConcreteDomain`:
a trigger state name and the implied state names, each with an optional
`"not "` polarity tag (the Python field `then` is `then_` here). -/
structure RawConstraint where
  state : String
  then_ : List String
deriving DecidableEq, Repr

/-- A `domain.Action` as the parser hands it to `ConcreteDomain`: the name
(Python attribute `action`), the precondition names and the result names,
each with an optional `"not "` tag. -/
structure RawAction where
  action : String
  must : List String
  then_ : List String
deriving DecidableEq, Repr

/-- Splitting the `"not "` polarity tag off a state name: `bit = 1` and the
name, or `bit = 0` and the name without the tag. -/
def parsePolarity (s : String) : Bool × String :=
  if "not ".data.isPrefixOf s.data then (false, ⟨s.data.drop 4⟩) else (true, s)

/-- The exceptions domain compilation can raise: `IncompatibleAdd` from
`BitMask.add`, a `KeyError` from the `state_bits` lookup, and
`IncompatibleConstraints` with the fields its constructor stores (the
constraint, the state at the time of the conflict, the implied state name,
the implied bit as a mask, and the action attached by the handler in
`ConcreteDomain.__init__`, when there is one). -/
inductive CompileError
  | incompatibleAdd
  | unknownState (name : String)
  | incompatibleConstraints (constraint : RawConstraint) (init_state : BitMask)
      (then_state : String) (then_mask : BitMask) (action : Option String)
deriving DecidableEq, Repr

/-- The `state_bits` table: each state name with its bit `1 << i`, in the
order of the sorted state list. -/
def stateBitsTable (states : List String) : List (String × Nat) :=
  states.enum.map (fun p => (p.2, 1 <<< p.1))

/-- Lookup in `state_bits`.  A Python dict keeps the last binding of a key,
so the reversed list is searched. -/
def lookupBit (sb : List (String × Nat)) (name : String) : Option Nat :=
  sb.reverse.lookup name

/-- Lexicographic code-point comparison of character lists, Python's `<`
on strings. -/
def charListLt : List Char → List Char → Bool
  | [], [] => false
  | [], _ :: _ => true
  | _ :: _, [] => false
  | c :: cs, d :: ds =>
    if c.toNat < d.toNat then true
    else if d.toNat < c.toNat then false
    else charListLt cs ds

/-- String comparison `a ≤ b`, matching how Python compares the `str` sort
keys. -/
def strLe (a b : String) : Bool := !(charListLt b.data a.data)

/-- The inner loop of `ConcreteDomain.apply_constraints` over one
constraint's implications: add each implied bit; a conflicting add raises
`IncompatibleConstraints` carrying the constraint, the state at that
point, the implied (tag-stripped) state name and the implied bit as a
mask, with no action attached. -/
def applyConstraintThen (w : Nat) (sb : List (String × Nat)) (constraint : RawConstraint) :
    List String → BitMask → Except CompileError BitMask
  | [], st => .ok st
  | then_state :: rest, st =>
    let pb := parsePolarity then_state
    match lookupBit sb pb.2 with
    | none => .error (.unknownState pb.2)
    | some then_bit_pos =>
      match st.add then_bit_pos pb.1 false with
      | none =>
        let then_mask := ((BitMask.null w).add then_bit_pos pb.1 false).getD (BitMask.null w)
        .error (.incompatibleConstraints constraint st pb.2 then_mask none)
      | some st2 => applyConstraintThen w sb constraint rest st2

/-- Method `ConcreteDomain.apply_constraints`: one forward pass over the
constraint list; each constraint whose trigger bit is known with the
required polarity adds its implied bits. -/
def apply_constraints (w : Nat) (sb : List (String × Nat)) :
    List RawConstraint → BitMask → Except CompileError BitMask
  | [], st => .ok st
  | constraint :: rest, st =>
    let pb := parsePolarity constraint.state
    match lookupBit sb pb.2 with
    | none => .error (.unknownState pb.2)
    | some state_bit =>
      if st.known_and_matches state_bit pb.1 then
        match applyConstraintThen w sb constraint constraint.then_ st with
        | .error e => .error e
        | .ok st2 => apply_constraints w sb rest st2
      else apply_constraints w sb rest st

/-- The add loop compiling a `must` or `then` name list into a bitmask. -/
def addStates (sb : List (String × Nat)) :
    List String → BitMask → Except CompileError BitMask
  | [], st => .ok st
  | s :: rest, st =>
    let pb := parsePolarity s
    match lookupBit sb pb.2 with
    | none => .error (.unknownState pb.2)
    | some pos =>
      match st.add pos pb.1 false with
      | none => .error .incompatibleAdd
      | some st2 => addStates sb rest st2

/-- Compilation of one action inside `ConcreteDomain.__init__`: build
`must_bits` and propagate constraints through it (unwrapped), build the
raw `then_bits` and propagate constraints through it — this call alone is
wrapped so that an `IncompatibleConstraints` gets the action attached —
and finally carry the preconditions forward into the effects. -/
def compileAction (w : Nat) (sb : List (String × Nat)) (constraints : List RawConstraint)
    (id : Nat) (raw : RawAction) : Except CompileError Action := do
  let must0 ← addStates sb raw.must (BitMask.null w)
  let must_bits ← apply_constraints w sb constraints must0
  let then0 ← addStates sb raw.then_ (BitMask.null w)
  let then1 ←
    match apply_constraints w sb constraints then0 with
    | .error (.incompatibleConstraints c st ts tm _) =>
      .error (.incompatibleConstraints c st ts tm (some raw.action))
    | other => other
  .ok ⟨id, raw.action, must_bits, then1.carry_forward must_bits⟩

/-- The action loop of `ConcreteDomain.__init__`, numbering the actions in
their sorted order (the number models Python object identity). -/
def compileActions (w : Nat) (sb : List (String × Nat)) (constraints : List RawConstraint) :
    Nat → List RawAction → Except CompileError (List Action)
  | _, [] => .ok []
  | i, raw :: rest => do
    let a ← compileAction w sb constraints i raw
    let rest2 ← compileActions w sb constraints (i + 1) rest
    .ok (a :: rest2)

/-- The state names `ConcreteDomain.__init__` infers when none are given:
every name mentioned in any action's `must` or `then`, tags stripped
(a Python set; the order does not matter because the states are sorted
right after). -/
def impliedStates (actions : List RawAction) : List String :=
  ((actions.flatMap (fun a => a.must ++ a.then_)).map (fun s => (parsePolarity s).2)).dedup

/-- Constructor `ConcreteDomain.__init__` for already expanded entity
lists: collect and sort the states, assign bits, sort the actions by name
and compile each one.  The pairwise mutex sets it computes at the end are
recomputed on demand by `Action.in_mutex` and raise nothing. -/
def compile (states0 : List String) (constraints : List RawConstraint)
    (actions0 : List RawAction) : Except CompileError Domain := do
  let states1 := if states0.isEmpty then impliedStates actions0 else states0
  let states := sortListBy strLe states1
  let w := states.length
  let sb := stateBitsTable states
  let sortedActions := sortListBy (fun a b => strLe a.action b.action) actions0
  let compiled ← compileActions w sb constraints 0 sortedActions
  .ok ⟨w, compiled⟩

end Bitplanning

namespace BitMask

/-- The representation invariant the constructor establishes: no value bit
outside the mask. -/
def maskInvariant (a : BitMask) : Prop := a.bits = a.bits &&& a.mask

/-- A `BitMask` fits a domain of `w` states: it has width `w`, its mask
stays below `2 ^ w`, and it satisfies the representation invariant. -/
def valid (w : Nat) (a : BitMask) : Prop :=
  a.width = w ∧ a.mask < 2 ^ w ∧ a.bits = a.bits &&& a.mask

/-- A character a mask string may contain: a dash or an ASCII letter. -/
def letterOrDash (c : Char) : Prop :=
  c = '-' ∨ (65 ≤ c.toNat ∧ c.toNat ≤ 90) ∨ (97 ≤ c.toNat ∧ c.toNat ≤ 122)

/-- The character class `from_string` dispatches on: 0 for a dash, 1 for an
upper-case ASCII letter, 2 for a lower-case one. -/
def maskCharClass (c : Char) : Nat :=
  if c = '-' then 0
  else if 65 ≤ c.toNat ∧ c.toNat ≤ 90 then 1
  else 2

/-- The character `mask_str` itself would emit at position `i`: a dash, or
position `i`'s own letter in the case carrying the value. -/
def canonicalMaskChar (i : Nat) (c : Char) : Prop :=
  c = '-' ∨ c = on_names.getD (i % 26) 'A' ∨ c = off_names.getD (i % 26) 'a' 

/-- A canonical mask string: each character is a dash or its own position's
letter (in either case), exactly the strings `mask_str` can produce. -/
def CanonicalMaskStr (s : String) : Prop :=
  ∀ p ∈ s.data.enum, canonicalMaskChar p.1 p.2

instance letterOrDashDecidable (c : Char) : Decidable (letterOrDash c) := by
  unfold letterOrDash
  infer_instance

instance canonicalMaskCharDecidable (i : Nat) (c : Char) :
    Decidable (canonicalMaskChar i c) := by
  unfold canonicalMaskChar
  infer_instance

instance canonicalMaskStrDecidable (s : String) : Decidable (CanonicalMaskStr s) := by
  unfold CanonicalMaskStr
  infer_instance

end BitMask

namespace Bitplanning

/-- An `ActionPool` whose two bitmasks fit a domain of `w` states. -/
def ActionPool.OK (w : Nat) (p : ActionPool) : Prop :=
  p.must_bits.valid w ∧ p.then_bits.valid w

/-- An `ActionSequence` fitting a domain of `w` states: it carries the
domain's null, its aggregate `must_bits` is valid and so are all its
pools. -/
def ActionSequence.OK (w : Nat) (s : ActionSequence) : Prop :=
  s.null = BitMask.null w ∧ s.must_bits.valid w ∧ ∀ p ∈ s.actions, p.OK w

/-- The loop invariant of `Problem.solve` for a domain of `w` states: every
frontier sequence fits the domain, every seen signature is valid, and the
seen list never holds a signature twice (it models a Python set). -/
def SearchState.OK (w : Nat) (st : SearchState) : Prop :=
  (∀ e ∈ st.frontier, e.1.OK w) ∧ (∀ b ∈ st.seen, b.valid w) ∧ st.seen.Nodup

/-- A compiled domain is well formed when every action's bitmasks fit it. -/
def Domain.WF (d : Domain) : Prop :=
  ∀ a ∈ d.actions, a.must_bits.valid d.width ∧ a.then_bits.valid d.width

/-- The termination potential of a search state: the frontier length plus
`poolBound` units for every signature not yet seen.  Every loop iteration
strictly decreases it. -/
def potential (d : Domain) (st : SearchState) : Nat :=
  st.frontier.length + poolBound d * (4 ^ d.width - st.seen.length)

/-- A domain with one state and no actions, used to instantiate the search
theorems on a concrete run. -/
def dTriv : Domain := ⟨1, []⟩

/-- A fully known one-bit start state. -/
def startTriv : BitMask := BitMask.make 1 1 1

/-- The empty (null) goal over one state. -/
def goalTriv : BitMask := BitMask.null 1

/-- The sequence holding only the goal pool of the null goal: the plan the
search returns immediately on `dTriv`. -/
def blankTriv : ActionSequence :=
  ⟨[goalPool goalTriv], BitMask.null 1, BitMask.null 1, BitMask.null 1⟩

/-- Raw actions of a seven-state example domain: three actions achieving
the goal state `g` from `p1`/`p2`/`p3`, and three achieving those from
`q1`/`q2`/`q3`. -/
def exampleRawActions : List RawAction :=
  [⟨"A1", ["p1"], ["g"]⟩, ⟨"A2", ["p2"], ["g"]⟩, ⟨"A3", ["p3"], ["g"]⟩,
   ⟨"B1", ["q1"], ["p1"]⟩, ⟨"B2", ["q2"], ["p2"]⟩, ⟨"B3", ["q3"], ["p3"]⟩]

/-- The state names of the example domain. -/
def exampleStates : List String := ["g", "p1", "p2", "p3", "q1", "q2", "q3"]

/-- The compiled example domain (proved below to be exactly what `compile`
returns on the raw lists). -/
def exampleDom : Domain :=
  ⟨7,
    [⟨0, "A1", BitMask.make 2 2 7, BitMask.make 3 3 7⟩,
     ⟨1, "A2", BitMask.make 4 4 7, BitMask.make 5 5 7⟩,
     ⟨2, "A3", BitMask.make 8 8 7, BitMask.make 9 9 7⟩,
     ⟨3, "B1", BitMask.make 16 16 7, BitMask.make 18 18 7⟩,
     ⟨4, "B2", BitMask.make 32 32 7, BitMask.make 36 36 7⟩,
     ⟨5, "B3", BitMask.make 64 64 7, BitMask.make 72 72 7⟩]⟩

/-- The all-false start state of the example domain. -/
def exampleStart : BitMask := BitMask.make 0 127 7

/-- The goal of the example domain: the state `g` true. -/
def exampleGoal : BitMask := BitMask.make 1 1 7

/-- A one-action domain over two states used to instantiate the pool
theorems: the action requires state 1 and achieves state 0. -/
def dPool : Domain := ⟨2, [⟨0, "A", BitMask.make 2 2 2, BitMask.make 3 3 2⟩]⟩

/-- The goal of the `dPool` example: state 0 true. -/
def goalPoolEx : BitMask := BitMask.make 1 1 2

/-- The single pool `strict_accomplishment_pools` yields on `dPool`. -/
def poolEx : ActionPool :=
  ⟨[⟨0, "A", BitMask.make 2 2 2, BitMask.make 3 3 2⟩],
    BitMask.make 2 2 2, BitMask.make 3 3 2⟩

/-- The constraint `p ⇒ not q` of the constraint-conflict scenario. -/
def cpConstraint : RawConstraint := ⟨"p", ["not q"]⟩

/-- The action requiring `p` and `q` of the constraint-conflict scenario. -/
def cpAction : RawAction := ⟨"go", ["p", "q"], []⟩

/-- A constraint `q ⇒ p` whose conflict arises while propagating an
action effect clause. -/
def cpConstraintThen : RawConstraint := ⟨"q", ["p"]⟩

/-- An action whose effects `q, not p` conflict with `cpConstraintThen`. -/
def cpActionThen : RawAction := ⟨"go", [], ["q", "not p"]⟩

end Bitplanning

namespace BitMask

/-- Specification pattern for the two accumulators of `parseChars`: bit `j`
of `n` holds exactly when position `j` lies in the parsed suffix (which
starts at offset `i`) and the test `f` accepts the character there. -/
def charSpec (f : Char → Bool) (l : List Char) (i : Nat) (n : Nat) : Prop :=
  ∀ j, n.testBit j =
    (decide (i ≤ j) && decide (j - i < l.length) && f (l.getD (j - i) '-'))

end BitMask


theorem testBit_andNot (a b i : Nat) :
    (andNot a b).testBit i = (a.testBit i && !(b.testBit i)) := by
  unfold andNot
  rw [Nat.testBit_xor, Nat.testBit_and]
  cases a.testBit i <;> cases b.testBit i <;> rfl

theorem eq_zero_iff_testBit (n : Nat) : n = 0 ↔ ∀ i, n.testBit i = false := by
  constructor
  · rintro rfl i
    exact Nat.zero_testBit i
  · intro h
    exact Nat.eq_of_testBit_eq (fun i => by rw [h i, Nat.zero_testBit])

theorem ne_zero_iff_testBit (n : Nat) : n ≠ 0 ↔ ∃ i, n.testBit i = true := by
  constructor
  · intro h
    by_contra hc
    push_neg at hc
    exact h ((eq_zero_iff_testBit n).mpr (fun i => by simpa using hc i))
  · rintro ⟨i, hi⟩ rfl
    rw [Nat.zero_testBit] at hi
    exact Bool.false_ne_true hi

theorem lt_two_pow_of_high_testBit {x w : Nat} (h : ∀ i, w ≤ i → x.testBit i = false) :
    x < 2 ^ w := by
  have hx : x = x % 2 ^ w := by
    apply Nat.eq_of_testBit_eq
    intro i
    rw [Nat.testBit_mod_two_pow]
    by_cases hi : i < w
    · simp [hi]
    · simp [hi, h i (Nat.le_of_not_lt hi)]
  rw [hx]
  exact Nat.mod_lt x (Nat.pos_pow_of_pos w (by norm_num))

namespace BitMask

theorem make_bits (b m w : Nat) : (make b m w).bits = b &&& m := rfl

theorem make_mask (b m w : Nat) : (make b m w).mask = m := rfl

theorem make_width (b m w : Nat) : (make b m w).width = w := rfl

theorem make_maskInvariant (b m w : Nat) : (make b m w).maskInvariant := by
  show b &&& m = (b &&& m) &&& m
  apply Nat.eq_of_testBit_eq
  intro i
  simp [Nat.testBit_and, Bool.and_assoc]

theorem conflicts_testBit (a b : BitMask) (i : Nat) :
    (a.conflicts b).testBit i =
      (a.mask.testBit i && b.mask.testBit i && (a.bits.testBit i != b.bits.testBit i)) := by
  unfold conflicts
  simp only [Nat.testBit_xor, Nat.testBit_and]
  cases a.mask.testBit i <;> cases b.mask.testBit i <;>
    cases a.bits.testBit i <;> cases b.bits.testBit i <;> rfl

theorem conflicts_eq_zero_iff (a b : BitMask) :
    a.conflicts b = 0 ↔
      ∀ i, a.mask.testBit i = true → b.mask.testBit i = true →
        a.bits.testBit i = b.bits.testBit i := by
  rw [eq_zero_iff_testBit]
  constructor
  · intro h i hma hmb
    have hi := h i
    rw [conflicts_testBit, hma, hmb] at hi
    simpa using hi
  · intro h i
    rw [conflicts_testBit]
    cases hma : a.mask.testBit i
    · rfl
    · cases hmb : b.mask.testBit i
      · rfl
      · have := h i hma hmb
        simp [this]

theorem conflicts_comm (a b : BitMask) : a.conflicts b = b.conflicts a := by
  apply Nat.eq_of_testBit_eq
  intro i
  rw [conflicts_testBit, conflicts_testBit]
  cases a.mask.testBit i <;> cases b.mask.testBit i <;>
    cases a.bits.testBit i <;> cases b.bits.testBit i <;> rfl

theorem conflicts_self (a : BitMask) : a.conflicts a = 0 := by
  unfold conflicts
  exact Nat.xor_self _

theorem accomplishes_testBit (a g : BitMask) (i : Nat) :
    (a.accomplishes_something g).testBit i =
      (a.mask.testBit i && g.mask.testBit i && (a.bits.testBit i == g.bits.testBit i)) := by
  unfold accomplishes_something
  simp only [Nat.testBit_xor, Nat.testBit_and, testBit_andNot]
  cases a.mask.testBit i <;> cases g.mask.testBit i <;>
    cases a.bits.testBit i <;> cases g.bits.testBit i <;> rfl

theorem accomplishes_ne_zero_iff (a g : BitMask) :
    a.accomplishes_something g ≠ 0 ↔
      ∃ i, a.mask.testBit i = true ∧ g.mask.testBit i = true ∧
        a.bits.testBit i = g.bits.testBit i := by
  rw [ne_zero_iff_testBit]
  constructor
  · rintro ⟨i, hi⟩
    rw [accomplishes_testBit] at hi
    refine ⟨i, ?_, ?_, ?_⟩ <;>
      (revert hi
       cases a.mask.testBit i <;> cases g.mask.testBit i <;>
         cases a.bits.testBit i <;> cases g.bits.testBit i <;> simp)
  · rintro ⟨i, h1, h2, h3⟩
    exact ⟨i, by rw [accomplishes_testBit, h1, h2, h3]; simp⟩

end BitMask

/-- Claim C8: every BitState the constructor produces — and hence the result
of every operation (add, union, all_union, difference, carry_forward,
unset_from_action, without_matching, except_satisfied_by, from_string,
null) — satisfies `bits = bits &&& mask`: no value bit is ever set outside
the mask. -/
theorem c8_representation_invariant :
    (∀ b m w : Nat, (BitMask.make b m w).maskInvariant)
    ∧ (∀ (a : BitMask) (p : Nat) (bit force : Bool) (r : BitMask),
        a.add p bit force = some r → r.maskInvariant)
    ∧ (∀ (a b r : BitMask), a.union b = some r → r.maskInvariant)
    ∧ (∀ (l : List BitMask) (r : BitMask), BitMask.all_union l = some r → r.maskInvariant)
    ∧ (∀ a b : BitMask, (a.difference b).maskInvariant)
    ∧ (∀ a b : BitMask, (a.carry_forward b).maskInvariant)
    ∧ (∀ (a b : BitMask) (force : Bool) (r : BitMask),
        a.unset_from_action b force = some r → r.maskInvariant)
    ∧ (∀ a b : BitMask, (a.without_matching b).maskInvariant)
    ∧ (∀ a b : BitMask, (a.except_satisfied_by b).maskInvariant)
    ∧ (∀ (s : String) (r : BitMask), BitMask.from_string s = some r → r.maskInvariant)
    ∧ (∀ w : Nat, (BitMask.null w).maskInvariant) := by
  refine ⟨BitMask.make_maskInvariant, ?_, ?_, ?_, ?_, ?_, ?_, ?_, ?_, ?_, ?_⟩
  · intro a p bit force r h
    unfold BitMask.add at h
    by_cases hg : (!force && (p &&& a.mask != 0) && ((p &&& a.bits) != (if bit then p else 0))) = true
    · rw [if_pos hg] at h
      simp at h
    · rw [if_neg hg] at h
      have hr := Option.some.inj h
      subst hr
      exact BitMask.make_maskInvariant _ _ _
  · intro a b r h
    unfold BitMask.union BitMask.all_union at h
    split at h
    · exact absurd h (by simp)
    · split at h
      · have hr := Option.some.inj h
        subst hr
        exact BitMask.make_maskInvariant _ _ _
      · exact absurd h (by simp)
  · intro l r h
    unfold BitMask.all_union at h
    split at h
    · exact absurd h (by simp)
    · split at h
      · have hr := Option.some.inj h
        subst hr
        exact BitMask.make_maskInvariant _ _ _
      · exact absurd h (by simp)
  · intro a b
    exact BitMask.make_maskInvariant _ _ _
  · intro a b
    exact BitMask.make_maskInvariant _ _ _
  · intro a b force r h
    unfold BitMask.unset_from_action at h
    split at h
    · exact absurd h (by simp)
    · have hr := Option.some.inj h
      subst hr
      exact BitMask.make_maskInvariant _ _ _
  · intro a b
    exact BitMask.make_maskInvariant _ _ _
  · intro a b
    exact BitMask.make_maskInvariant _ _ _
  · intro s r h
    simp only [BitMask.from_string, Option.map_eq_some'] at h
    obtain ⟨bm, hp, hr⟩ := h
    subst hr
    exact BitMask.make_maskInvariant _ _ _
  · intro w
    exact BitMask.make_maskInvariant _ _ _

/-- Witness for C8 at concrete inputs: the constructor at `(5, 3, 2)` and a
concrete successful `add`. -/
theorem c8_representation_invariant_witness :
    (BitMask.make 5 3 2).maskInvariant ∧ (BitMask.make 1 1 2).maskInvariant :=
  ⟨c8_representation_invariant.1 5 3 2,
   c8_representation_invariant.2.1 (BitMask.null 2) 1 true false (BitMask.make 1 1 2) rfl⟩

/-- Claim C4 (corrected): BitState equality holds exactly when the two
values agree on all of bits, mask and width; the hash however is computed
from the bits payload alone, so any two BitStates with equal bits hash
alike no matter their masks and widths. -/
theorem c4_eq_and_hash :
    (∀ a b : BitMask, a.beq b = true ↔ a.bits = b.bits ∧ a.mask = b.mask ∧ a.width = b.width)
    ∧ (∀ a b : BitMask, a.bits = b.bits → a.pyHash = b.pyHash) := by
  constructor
  · intro a b
    unfold BitMask.beq
    simp only [Bool.and_eq_true, beq_iff_eq]
    tauto
  · intro a b h
    unfold BitMask.pyHash
    exact h

/-- Witness for C4 at a concrete input. -/
theorem c4_eq_and_hash_witness :
    (BitMask.make 1 3 2).beq (BitMask.make 1 3 2) = true ∧
      (BitMask.make 1 3 2).pyHash = (BitMask.make 1 3 2).pyHash :=
  ⟨(c4_eq_and_hash.1 (BitMask.make 1 3 2) (BitMask.make 1 3 2)).mpr ⟨rfl, rfl, rfl⟩,
   c4_eq_and_hash.2 (BitMask.make 1 3 2) (BitMask.make 1 3 2) rfl⟩

/-- Counterexample to C4 as stated: the hash is not computed from the full
`(bits, mask, width)` tuple — two BitStates with equal bits but different
masks are unequal under `__eq__` yet receive the same hash, so equality and
hashing do not distinguish them consistently. -/
theorem c4_eq_and_hash_cex :
    (BitMask.make 1 3 2).pyHash = (BitMask.make 1 1 2).pyHash ∧
      (BitMask.make 1 3 2).beq (BitMask.make 1 1 2) = false := by
  constructor <;> rfl

theorem mem_of_getLastSome {α : Type} {l : List α} {a : α} (h : l.getLast? = some a) :
    a ∈ l := by
  obtain ⟨hne, rfl⟩ := List.mem_getLast?_eq_getLast (Option.mem_def.mpr h)
  exact List.getLast_mem hne

namespace BitMask

theorem unionFoldGo_mask_testBit (items : List BitMask) (b m i : Nat) :
    ((unionFoldGo items b m).2).testBit i =
      (m.testBit i || items.any (fun it => it.mask.testBit i)) := by
  induction items generalizing b m with
  | nil => simp [unionFoldGo]
  | cons x xs ih =>
    simp only [unionFoldGo]
    rw [ih]
    simp [Nat.testBit_or, Bool.or_assoc]

theorem unionFoldGo_bits_testBit (items : List BitMask) (b m i : Nat) (v : Bool)
    (h : ∀ it ∈ items, it.mask.testBit i = true → it.bits.testBit i = v) :
    ((unionFoldGo items b m).1).testBit i =
      (if items.any (fun it => it.mask.testBit i) then v else b.testBit i) := by
  induction items generalizing b m with
  | nil => simp [unionFoldGo]
  | cons x xs ih =>
    simp only [unionFoldGo]
    rw [ih _ _ (fun it hit => h it (List.mem_cons_of_mem _ hit))]
    by_cases hx : x.mask.testBit i = true
    · have hv := h x (List.mem_cons_self x xs) hx
      have hb : (andNot (b ||| (x.mask &&& x.bits)) (andNot x.mask x.bits)).testBit i = v := by
        rw [testBit_andNot, Nat.testBit_or, Nat.testBit_and, testBit_andNot, hx, hv]
        cases v <;> cases b.testBit i <;> rfl
      rw [hb]
      simp only [List.any_cons, hx, Bool.true_or, if_true]
      split <;> rfl
    · have hxf : x.mask.testBit i = false := by
        cases hm : x.mask.testBit i
        · rfl
        · exact absurd hm hx
      have hb : (andNot (b ||| (x.mask &&& x.bits)) (andNot x.mask x.bits)).testBit i =
          b.testBit i := by
        rw [testBit_andNot, Nat.testBit_or, Nat.testBit_and, testBit_andNot, hxf]
        cases b.testBit i <;> cases x.bits.testBit i <;> rfl
      rw [hb]
      simp only [List.any_cons, hxf, Bool.false_or]

theorem pairwiseOk_iff (items : List BitMask) :
    pairwiseOk items = true ↔
      ∀ a ∈ items, ∀ b ∈ items, a.conflicts b = 0 ∧ a.width = b.width := by
  induction items with
  | nil => simp [pairwiseOk]
  | cons x xs ih =>
    simp only [pairwiseOk, Bool.and_eq_true, List.all_eq_true, ih]
    constructor
    · rintro ⟨hall, hrest⟩ a ha b hb
      rcases List.mem_cons.mp ha with ha1 | ha2
      · subst ha1
        rcases List.mem_cons.mp hb with hb1 | hb2
        · subst hb1
          exact ⟨conflicts_self _, rfl⟩
        · have hx := hall b hb2
          simp only [Bool.and_eq_true, beq_iff_eq] at hx
          exact hx
      · rcases List.mem_cons.mp hb with hb1 | hb2
        · subst hb1
          have hx := hall a ha2
          simp only [Bool.and_eq_true, beq_iff_eq] at hx
          exact ⟨by rw [conflicts_comm]; exact hx.1, hx.2.symm⟩
        · exact hrest a ha2 b hb2
    · intro h
      refine ⟨?_, ?_⟩
      · intro b hb
        have hx := h x (List.mem_cons_self x xs) b (List.mem_cons_of_mem _ hb)
        simp only [Bool.and_eq_true, beq_iff_eq]
        exact hx
      · intro a ha b hb
        exact h a (List.mem_cons_of_mem _ ha) b (List.mem_cons_of_mem _ hb)

theorem all_union_some_spec (items : List BitMask) (u : BitMask)
    (h : all_union items = some u) :
    pairwiseOk items = true ∧
      ∃ last, items.getLast? = some last ∧
        u = make (unionFold items).1 (unionFold items).2 last.width := by
  unfold all_union at h
  cases hl : items.getLast? with
  | none => simp [hl] at h
  | some last =>
    simp only [hl] at h
    by_cases hpw : pairwiseOk items = true
    · rw [if_pos hpw] at h
      exact ⟨hpw, last, rfl, (Option.some.inj h).symm⟩
    · rw [if_neg hpw] at h
      simp at h

theorem all_union_agrees (items : List BitMask) (u a : BitMask) (i : Nat)
    (h : all_union items = some u) (ha : a ∈ items) (hm : a.mask.testBit i = true) :
    u.mask.testBit i = true ∧ u.bits.testBit i = a.bits.testBit i := by
  obtain ⟨hpw, last, _, hu⟩ := all_union_some_spec items u h
  have hcons := (pairwiseOk_iff items).mp hpw
  have hany : items.any (fun it => it.mask.testBit i) = true :=
    List.any_eq_true.mpr ⟨a, ha, hm⟩
  have hmask : ((unionFold items).2).testBit i = true := by
    unfold unionFold
    rw [unionFoldGo_mask_testBit]
    simp [hany]
  have hagree : ∀ it ∈ items, it.mask.testBit i = true →
      it.bits.testBit i = a.bits.testBit i := by
    intro it hit hmit
    exact (conflicts_eq_zero_iff it a).mp (hcons it hit a ha).1 i hmit hm
  have hbits : ((unionFold items).1).testBit i = a.bits.testBit i := by
    unfold unionFold
    rw [unionFoldGo_bits_testBit items 0 0 i (a.bits.testBit i) hagree, if_pos hany]
  subst hu
  rw [make_mask, make_bits, Nat.testBit_and, hmask, hbits]
  exact ⟨rfl, Bool.and_true _⟩

end BitMask

/-- Claim C10: `all_union` applied to an empty list never returns a
BitState (its `width` variable is only assigned inside the loop, so the
call fails), while under the precondition that the list is non-empty, all
widths agree and no two items conflict it returns the merged value: the
mask is the union of the masks, each value bit is the value some item
knows, and the width is the common width. -/
theorem c10_all_union_empty_vs_merged :
    BitMask.all_union [] = none ∧
    ∀ items : List BitMask, items ≠ [] →
      (∀ a ∈ items, ∀ b ∈ items, a.width = b.width) →
      (∀ a ∈ items, ∀ b ∈ items, a.conflicts b = 0) →
      ∃ u, BitMask.all_union items = some u ∧
        (∀ i, u.mask.testBit i = items.any (fun it => it.mask.testBit i)) ∧
        (∀ i, u.bits.testBit i = items.any (fun it => it.mask.testBit i && it.bits.testBit i)) ∧
        ∀ a ∈ items, u.width = a.width := by
  refine ⟨rfl, ?_⟩
  intro items hne hw hc
  cases hl : items.getLast? with
  | none => exact absurd (List.getLast?_eq_none_iff.mp hl) hne
  | some last =>
    have hlast : last ∈ items := mem_of_getLastSome hl
    have hpw : BitMask.pairwiseOk items = true :=
      (BitMask.pairwiseOk_iff items).mpr (fun a ha b hb => ⟨hc a ha b hb, hw a ha b hb⟩)
    refine ⟨BitMask.make (BitMask.unionFold items).1 (BitMask.unionFold items).2 last.width,
      ?_, ?_, ?_, ?_⟩
    · unfold BitMask.all_union
      simp only [hl]
      rw [if_pos hpw]
    · intro i
      rw [BitMask.make_mask]
      unfold BitMask.unionFold
      rw [BitMask.unionFoldGo_mask_testBit]
      simp [Nat.zero_testBit]
    · intro i
      by_cases hany : items.any (fun it => it.mask.testBit i) = true
      · obtain ⟨a0, ha0, hm0⟩ := List.any_eq_true.mp hany
        have hagree : ∀ it ∈ items, it.mask.testBit i = true →
            it.bits.testBit i = a0.bits.testBit i := fun it hit hmit =>
          (BitMask.conflicts_eq_zero_iff it a0).mp (hc it hit a0 ha0) i hmit hm0
        have hmaskbit : ((BitMask.unionFold items).2).testBit i = true := by
          unfold BitMask.unionFold
          rw [BitMask.unionFoldGo_mask_testBit]
          simp [hany]
        rw [BitMask.make_bits, Nat.testBit_and, hmaskbit, Bool.and_true]
        unfold BitMask.unionFold
        rw [BitMask.unionFoldGo_bits_testBit items 0 0 i (a0.bits.testBit i) hagree,
          if_pos hany]
        cases hv : a0.bits.testBit i
        · symm
          rw [List.any_eq_false]
          intro it hit
          by_cases hmit : it.mask.testBit i = true
          · rw [hmit, hagree it hit hmit, hv]
            simp
          · simp only [Bool.not_eq_true] at hmit
            rw [hmit]
            simp
        · symm
          rw [List.any_eq_true]
          exact ⟨a0, ha0, by rw [hm0, hv]; rfl⟩
      · have hanyf : items.any (fun it => it.mask.testBit i) = false := by
          cases ha : items.any (fun it => it.mask.testBit i)
          · rfl
          · exact absurd ha hany
        have hmaskbit : ((BitMask.unionFold items).2).testBit i = false := by
          unfold BitMask.unionFold
          rw [BitMask.unionFoldGo_mask_testBit, hanyf]
          simp [Nat.zero_testBit]
        rw [BitMask.make_bits, Nat.testBit_and, hmaskbit, Bool.and_false]
        symm
        rw [List.any_eq_false]
        intro it hit
        have : it.mask.testBit i = false := by
          have := List.any_eq_false.mp hanyf it hit
          simpa using this
        rw [this]
        simp
    · intro a ha
      rw [BitMask.make_width]
      exact hw last hlast a ha

/-- Witness for C10 at a concrete two-element list. -/
theorem c10_all_union_empty_vs_merged_witness :
    (BitMask.all_union [BitMask.make 1 1 2, BitMask.make 2 2 2]).isSome = true := by
  obtain ⟨u, hu, -⟩ :=
    c10_all_union_empty_vs_merged.2 [BitMask.make 1 1 2, BitMask.make 2 2 2]
      (by simp) (by decide) (by decide)
  rw [hu]
  rfl

theorem dropWhile_eq_self {α : Type} (p : α → Bool) (l : List α)
    (h : ∀ x ∈ l, p x = false) : l.dropWhile p = l := by
  cases l with
  | nil => rfl
  | cons x xs => simp [List.dropWhile_cons, h x (List.mem_cons_self x xs)]

namespace BitMask

theorem stripChar_eq_self (c : Char) (l : List Char)
    (h : ∀ x ∈ l, (x == c) = false) : stripChar c l = l := by
  unfold stripChar
  rw [dropWhile_eq_self _ _ h]
  rw [dropWhile_eq_self _ _ (fun x hx => h x (List.mem_reverse.mp hx))]
  exact List.reverse_reverse l

theorem stripSpace_eq_self (l : List Char)
    (h : ∀ x ∈ l, isSpaceChar x = false) : stripSpace l = l := by
  unfold stripSpace
  rw [dropWhile_eq_self _ _ h]
  rw [dropWhile_eq_self _ _ (fun x hx => h x (List.mem_reverse.mp hx))]
  exact List.reverse_reverse l

theorem letterOrDash_toNat (c : Char) (h : letterOrDash c) :
    c.toNat = 45 ∨ (65 ≤ c.toNat ∧ c.toNat ≤ 90) ∨ (97 ≤ c.toNat ∧ c.toNat ≤ 122) := by
  rcases h with rfl | h | h
  · left; rfl
  · right; left; exact h
  · right; right; exact h

theorem letterOrDash_beq_char (c d : Char) (h : letterOrDash c)
    (hd : d.toNat ≠ 45 ∧ (d.toNat < 65 ∨ 90 < d.toNat) ∧ (d.toNat < 97 ∨ 122 < d.toNat)) :
    (c == d) = false := by
  have hne : c ≠ d := by
    intro hcd
    subst hcd
    rcases letterOrDash_toNat c h with h1 | h2 | h3
    · exact hd.1 h1
    · rcases hd.2.1 with hlt | hgt
      · omega
      · omega
    · rcases hd.2.2 with hlt | hgt
      · omega
      · omega
  simp [hne]

theorem letterOrDash_not_space (c : Char) (h : letterOrDash c) :
    isSpaceChar c = false := by
  unfold isSpaceChar
  have h32 := letterOrDash_beq_char c ' ' h (by refine ⟨?_, ?_, ?_⟩ <;> simp)
  have h9 := letterOrDash_beq_char c '\t' h (by refine ⟨?_, ?_, ?_⟩ <;> simp)
  have h10 := letterOrDash_beq_char c '\n' h (by refine ⟨?_, ?_, ?_⟩ <;> simp)
  have h13 := letterOrDash_beq_char c '\r' h (by refine ⟨?_, ?_, ?_⟩ <;> simp)
  have h11 := letterOrDash_beq_char c '\x0b' h (by refine ⟨?_, ?_, ?_⟩ <;> simp)
  have h12 := letterOrDash_beq_char c '\x0c' h (by refine ⟨?_, ?_, ?_⟩ <;> simp)
  rw [h32, h9, h10, h13, h11, h12]
  rfl

theorem no_tag_of_letterOrDash (l : List Char) (h : ∀ x ∈ l, letterOrDash x) :
    "BitMask ".data.isPrefixOf l = false := by
  cases hp : "BitMask ".data.isPrefixOf l
  · rfl
  · exfalso
    obtain ⟨t, ht⟩ := List.isPrefixOf_iff_prefix.mp hp
    have hmem : ' ' ∈ l := by
      rw [← ht]
      refine List.mem_append_left t ?_
      decide
    have := letterOrDash_not_space ' ' (h ' ' hmem)
    simp [isSpaceChar] at this

theorem from_string_of_letterOrDash (s : String) (h : ∀ x ∈ s.data, letterOrDash x) :
    from_string s =
      (parseChars s.data 0).map (fun bm => make bm.1 bm.2 s.data.length) := by
  unfold from_string
  have hlt : stripChar '<' s.data = s.data :=
    stripChar_eq_self _ _ (fun x hx =>
      letterOrDash_beq_char x '<' (h x hx) (by refine ⟨?_, ?_, ?_⟩ <;> simp))
  have hgt : stripChar '>' s.data = s.data :=
    stripChar_eq_self _ _ (fun x hx =>
      letterOrDash_beq_char x '>' (h x hx) (by refine ⟨?_, ?_, ?_⟩ <;> simp))
  rw [hlt, hgt]
  simp only [no_tag_of_letterOrDash s.data h, Bool.false_eq_true, if_false,
    stripSpace_eq_self s.data (fun x hx => letterOrDash_not_space x (h x hx))]

end BitMask

namespace BitMask

theorem charSpec_nil (f : Char → Bool) (i : Nat) : charSpec f [] i 0 := by
  intro j
  simp [Nat.zero_testBit]

theorem charSpec_skip (f : Char → Bool) (c : Char) (cs : List Char) (i n : Nat)
    (hn : charSpec f cs (i + 1) n) (hc : f c = false) : charSpec f (c :: cs) i n := by
  intro j
  rcases Nat.lt_trichotomy j i with hj | hj | hj
  · rw [hn j]
    have h1 : decide (i + 1 ≤ j) = false := by simp; omega
    have h2 : decide (i ≤ j) = false := by simp; omega
    rw [h1, h2]
    rfl
  · subst hj
    rw [hn j]
    have h1 : decide (j + 1 ≤ j) = false := by simp
    have h2 : j - j = 0 := by omega
    rw [h1, h2]
    simp [hc]
  · rw [hn j]
    have h1 : decide (i + 1 ≤ j) = true := by simp; omega
    have h2 : decide (i ≤ j) = true := by simp; omega
    have h3 : j - i = (j - (i + 1)) + 1 := by omega
    rw [h1, h2, h3]
    simp only [List.getD_cons_succ, List.length_cons]
    have h4 : decide (j - (i + 1) < cs.length) = decide (j - (i + 1) + 1 < cs.length + 1) :=
      decide_eq_decide.mpr (by omega)
    rw [h4]

theorem charSpec_set (f : Char → Bool) (c : Char) (cs : List Char) (i n : Nat)
    (hn : charSpec f cs (i + 1) n) (hc : f c = true) :
    charSpec f (c :: cs) i (n ||| (1 <<< i)) := by
  intro j
  rw [Nat.testBit_or, Nat.one_shiftLeft, Nat.testBit_two_pow]
  rcases Nat.lt_trichotomy j i with hj | hj | hj
  · rw [hn j]
    have h1 : decide (i + 1 ≤ j) = false := by simp; omega
    have h2 : decide (i ≤ j) = false := by simp; omega
    have h3 : decide (i = j) = false := by simp; omega
    rw [h1, h2, h3]
    rfl
  · subst hj
    rw [hn j]
    have h1 : decide (j + 1 ≤ j) = false := by simp
    have h2 : j - j = 0 := by omega
    have h3 : decide (j = j) = true := by simp
    rw [h1, h2, h3]
    simp [hc]
  · rw [hn j]
    have h1 : decide (i + 1 ≤ j) = true := by simp; omega
    have h2 : decide (i ≤ j) = true := by simp; omega
    have h3 : decide (i = j) = false := by simp; omega
    have h4 : j - i = (j - (i + 1)) + 1 := by omega
    rw [h1, h2, h3, h4]
    simp only [List.getD_cons_succ, List.length_cons, Bool.or_false]
    have h5 : decide (j - (i + 1) < cs.length) = decide (j - (i + 1) + 1 < cs.length + 1) :=
      decide_eq_decide.mpr (by omega)
    rw [h5]

theorem parseChars_spec : ∀ (l : List Char) (i : Nat),
    (∀ c ∈ l, letterOrDash c) →
    ∃ bm : Nat × Nat, parseChars l i = some bm ∧
      charSpec (fun c => !(c == '-')) l i bm.2 ∧
      charSpec (fun c => decide (65 ≤ c.toNat ∧ c.toNat ≤ 90)) l i bm.1
  | [], i, _ => ⟨(0, 0), rfl, charSpec_nil _ i, charSpec_nil _ i⟩
  | c :: cs, i, h => by
    obtain ⟨bm, hp, hmask, hbits⟩ :=
      parseChars_spec cs (i + 1) (fun x hx => h x (List.mem_cons_of_mem _ hx))
    rcases h c (List.mem_cons_self c cs) with hc | hc | hc
    · subst hc
      refine ⟨bm, ?_, ?_, ?_⟩
      · simp only [parseChars, hp]
        rfl
      · exact charSpec_skip _ _ _ _ _ hmask (by simp)
      · exact charSpec_skip _ _ _ _ _ hbits (by simp)
    · have hdash : (c == '-') = false := by
        have : c ≠ '-' := by
          intro hcd
          subst hcd
          revert hc
          decide
        simp [this]
      have hupper : (decide (65 ≤ c.toNat) && decide (c.toNat ≤ 90)) = true := by
        simp only [Bool.and_eq_true, decide_eq_true_eq]
        omega
      refine ⟨(bm.1 ||| (1 <<< i), bm.2 ||| (1 <<< i)), ?_, ?_, ?_⟩
      · simp only [parseChars, hp, hdash, hupper]
        rfl
      · exact charSpec_set _ _ _ _ _ hmask (by rw [hdash]; rfl)
      · exact charSpec_set _ _ _ _ _ hbits (by simp only [decide_eq_true_eq]; omega)
    · have hdash : (c == '-') = false := by
        have : c ≠ '-' := by
          intro hcd
          subst hcd
          revert hc
          decide
        simp [this]
      have hupper : (decide (65 ≤ c.toNat) && decide (c.toNat ≤ 90)) = false := by
        have : ¬ (c.toNat ≤ 90) := by omega
        simp [this]
      have hlower : (decide (97 ≤ c.toNat) && decide (c.toNat ≤ 122)) = true := by
        simp only [Bool.and_eq_true, decide_eq_true_eq]
        omega
      refine ⟨(bm.1, bm.2 ||| (1 <<< i)), ?_, ?_, ?_⟩
      · simp only [parseChars, hp, hdash, hupper, hlower]
        rfl
      · exact charSpec_set _ _ _ _ _ hmask (by rw [hdash]; rfl)
      · refine charSpec_skip _ _ _ _ _ hbits ?_
        have : ¬ (65 ≤ c.toNat ∧ c.toNat ≤ 90) := by omega
        simp [this]

end BitMask

theorem bne_zero_and_shift (n i : Nat) : (n &&& (1 <<< i) != 0) = n.testBit i := by
  rw [Nat.one_shiftLeft, Nat.and_two_pow]
  cases h : n.testBit i <;> simp

namespace BitMask

theorem on_names_toNat : ∀ k, k < 26 → (on_names.getD k 'A').toNat = 65 + k := by decide

theorem off_names_toNat : ∀ k, k < 26 → (off_names.getD k 'a').toNat = 97 + k := by decide

theorem canonical_letterOrDash (i : Nat) (c : Char) (h : canonicalMaskChar i c) :
    letterOrDash c := by
  have hk : i % 26 < 26 := Nat.mod_lt i (by norm_num)
  rcases h with rfl | rfl | rfl
  · exact Or.inl rfl
  · refine Or.inr (Or.inl ?_)
    rw [on_names_toNat _ hk]
    omega
  · refine Or.inr (Or.inr ?_)
    rw [off_names_toNat _ hk]
    omega

end BitMask

/-- Claim C5 (corrected): the round trip holds for the canonical mask
strings — those whose characters are `-` or position `i`'s own letter
(`chr(65 + i mod 26)` in upper or lower case): for every such string,
`from_string(s).mask_str() = s`.  For arbitrary ASCII letters it fails,
because `from_string` only looks at the character's case (see the
counterexample). -/
theorem c5_round_trip_canonical (s : String) (h : BitMask.CanonicalMaskStr s) :
    (BitMask.from_string s).map BitMask.mask_str = some s := by
  obtain ⟨sd⟩ := s
  have hcanon : ∀ j, (hj : j < sd.length) → BitMask.canonicalMaskChar j sd[j] := by
    intro j hj
    refine h (j, sd[j]) ?_
    exact List.mem_enum_iff_getElem?.mpr (by simp [hj, List.getElem?_eq_getElem])
  have hlod : ∀ c ∈ sd, BitMask.letterOrDash c := by
    intro c hc
    obtain ⟨j, hj, rfl⟩ := List.mem_iff_getElem.mp hc
    exact BitMask.canonical_letterOrDash j _ (hcanon j hj)
  obtain ⟨bm, hp, hmask, hbits⟩ := BitMask.parseChars_spec sd 0 hlod
  rw [BitMask.from_string_of_letterOrDash ⟨sd⟩ hlod]
  show Option.map BitMask.mask_str
      ((BitMask.parseChars sd 0).map (fun bm => BitMask.make bm.1 bm.2 sd.length)) =
    some (⟨sd⟩ : String)
  rw [hp]
  simp only [Option.map_some']
  congr 1
  show String.mk _ = String.mk sd
  congr 1
  refine List.ext_getElem ?_ ?_
  · simp [BitMask.make_width]
  · intro j hj1 hj2
    have hjlen : j < sd.length := hj2
    have hjrange : j < (BitMask.make bm.1 bm.2 sd.length).width := by
      simpa [BitMask.make_width] using hjlen
    rw [List.getElem_map, List.getElem_range]
    have hmj := hmask j
    have hbj := hbits j
    have hj0 : decide (0 ≤ j) = true := by simp
    have hjl : decide (j - 0 < sd.length) = true := by simp [hjlen]
    rw [hj0, hjl] at hmj hbj
    simp only [Nat.sub_zero, Bool.true_and] at hmj hbj
    rw [List.getD_eq_getElem sd '-' hjlen] at hmj
    simp only [List.getD_eq_getElem sd '-' hjlen] at hbj
    have hk : j % 26 < 26 := Nat.mod_lt j (by norm_num)
    have honlen : BitMask.on_names.length = 26 := rfl
    rcases hcanon j hjlen with hc | hc | hc
    · have hmf : (BitMask.make bm.1 bm.2 sd.length).mask.testBit j = false := by
        rw [BitMask.make_mask, hmj, hc]
        simp
      simp only [bne_zero_and_shift, hmf, Bool.false_eq_true, if_false]
      rw [hc]
    · have htn : (sd[j]).toNat = 65 + j % 26 := by
        rw [hc]
        exact BitMask.on_names_toNat _ hk
      have hne : (sd[j] == '-') = false := by
        have : sd[j] ≠ '-' := fun hceq => by
          rw [hceq] at htn
          have h45 : ('-' : Char).toNat = 45 := rfl
          rw [h45] at htn
          omega
        simp [this]
      have hmt : (BitMask.make bm.1 bm.2 sd.length).mask.testBit j = true := by
        rw [BitMask.make_mask, hmj, hne]
        rfl
      have hbt : (BitMask.make bm.1 bm.2 sd.length).bits.testBit j = true := by
        rw [BitMask.make_bits, Nat.testBit_and, hbj, hmj, hne]
        have : (65 ≤ (sd[j]).toNat ∧ (sd[j]).toNat ≤ 90) := by omega
        simp [this]
      simp only [bne_zero_and_shift, hmt, hbt, if_true]
      rw [hc, honlen]
    · have htn : (sd[j]).toNat = 97 + j % 26 := by
        rw [hc]
        exact BitMask.off_names_toNat _ hk
      have hne : (sd[j] == '-') = false := by
        have : sd[j] ≠ '-' := fun hceq => by
          rw [hceq] at htn
          have h45 : ('-' : Char).toNat = 45 := rfl
          rw [h45] at htn
          omega
        simp [this]
      have hmt : (BitMask.make bm.1 bm.2 sd.length).mask.testBit j = true := by
        rw [BitMask.make_mask, hmj, hne]
        rfl
      have hbf : (BitMask.make bm.1 bm.2 sd.length).bits.testBit j = false := by
        rw [BitMask.make_bits, Nat.testBit_and, hbj]
        have : ¬ (65 ≤ (sd[j]).toNat ∧ (sd[j]).toNat ≤ 90) := by omega
        simp [this]
      simp only [bne_zero_and_shift, hmt, hbf, if_true, Bool.false_eq_true, if_false]
      rw [hc, honlen]

/-- Witness for C5 at the canonical string `Ab-`. -/
theorem c5_round_trip_canonical_witness :
    (BitMask.from_string "Ab-").map BitMask.mask_str = some "Ab-" :=
  c5_round_trip_canonical "Ab-" (by decide)

/-- Counterexample to C5 as stated: `B` is a valid mask string under the
claim (one ASCII letter per position), but it decodes by case only and
prints back as position 0's letter `A`, so the round trip fails. -/
theorem c5_round_trip_cex :
    (BitMask.from_string "B").map BitMask.mask_str = some "A" ∧ "A" ≠ "B" := by
  constructor
  · decide
  · decide

namespace BitMask

theorem class_branch (c : Char) (h : letterOrDash c) :
    (maskCharClass c = 0 ∧ c = '-') ∨
    (maskCharClass c = 1 ∧ c ≠ '-' ∧ (65 ≤ c.toNat ∧ c.toNat ≤ 90)) ∨
    (maskCharClass c = 2 ∧ c ≠ '-' ∧ ¬(65 ≤ c.toNat ∧ c.toNat ≤ 90) ∧
      (97 ≤ c.toNat ∧ c.toNat ≤ 122)) := by
  rcases h with rfl | hc | hc
  · left
    exact ⟨rfl, rfl⟩
  · right
    left
    have hne : c ≠ '-' := by
      intro hcd
      subst hcd
      revert hc
      decide
    refine ⟨?_, hne, hc⟩
    unfold maskCharClass
    rw [if_neg hne, if_pos hc]
  · right
    right
    have hne : c ≠ '-' := by
      intro hcd
      subst hcd
      revert hc
      decide
    have hnu : ¬ (65 ≤ c.toNat ∧ c.toNat ≤ 90) := by omega
    refine ⟨?_, hne, hnu, hc⟩
    unfold maskCharClass
    rw [if_neg hne, if_neg hnu]

theorem parseChars_class_congr (s : List Char) :
    ∀ (t : List Char) (i : Nat),
      List.Forall₂ (fun a b => maskCharClass a = maskCharClass b) s t →
      (∀ c ∈ s, letterOrDash c) → (∀ c ∈ t, letterOrDash c) →
      parseChars s i = parseChars t i := by
  induction s with
  | nil =>
    intro t i h _ _
    cases h
    rfl
  | cons a s ih =>
    intro t i h hs ht
    cases h with
    | cons hab htl =>
      rename_i b t2
      have ha := hs a (List.mem_cons_self a s)
      have hb := ht b (List.mem_cons_self b t2)
      have hst : parseChars t2 (i + 1) = parseChars s (i + 1) :=
        (ih t2 (i + 1) htl (fun c hc => hs c (List.mem_cons_of_mem _ hc))
          (fun c hc => ht c (List.mem_cons_of_mem _ hc))).symm
      simp only [parseChars, hst]
      cases hrec : parseChars s (i + 1) with
      | none => rfl
      | some bm =>
        rcases class_branch a ha with ⟨ca, ea⟩ | ⟨ca, ea1, ea2⟩ | ⟨ca, ea1, ea2, ea3⟩ <;>
          rcases class_branch b hb with ⟨cb, eb⟩ | ⟨cb, eb1, eb2⟩ | ⟨cb, eb1, eb2, eb3⟩ <;>
            rw [ca, cb] at hab
        · subst ea
          subst eb
          rfl
        · exact absurd hab (by decide)
        · exact absurd hab (by decide)
        · exact absurd hab (by decide)
        · have ha1 : (a == '-') = false := by simp [ea1]
          have hb1 : (b == '-') = false := by simp [eb1]
          simp only [ha1, hb1, Bool.false_eq_true, if_false]
          have ha2 : (decide (65 ≤ a.toNat) && decide (a.toNat ≤ 90)) = true := by
            simp only [Bool.and_eq_true, decide_eq_true_eq]
            exact ea2
          have hb2 : (decide (65 ≤ b.toNat) && decide (b.toNat ≤ 90)) = true := by
            simp only [Bool.and_eq_true, decide_eq_true_eq]
            exact eb2
          rw [if_pos ha2, if_pos hb2]
        · exact absurd hab (by decide)
        · exact absurd hab (by decide)
        · exact absurd hab (by decide)
        · have ha1 : (a == '-') = false := by simp [ea1]
          have hb1 : (b == '-') = false := by simp [eb1]
          simp only [ha1, hb1, Bool.false_eq_true, if_false]
          have ha2 : ¬ ((decide (65 ≤ a.toNat) && decide (a.toNat ≤ 90)) = true) := by
            simp only [Bool.and_eq_true, decide_eq_true_eq]
            exact ea2
          have hb2 : ¬ ((decide (65 ≤ b.toNat) && decide (b.toNat ≤ 90)) = true) := by
            simp only [Bool.and_eq_true, decide_eq_true_eq]
            exact eb2
          have ha3 : (decide (97 ≤ a.toNat) && decide (a.toNat ≤ 122)) = true := by
            simp only [Bool.and_eq_true, decide_eq_true_eq]
            exact ea3
          have hb3 : (decide (97 ≤ b.toNat) && decide (b.toNat ≤ 122)) = true := by
            simp only [Bool.and_eq_true, decide_eq_true_eq]
            exact eb3
          rw [if_neg ha2, if_neg hb2, if_pos ha3, if_pos hb3]

end BitMask

/-- Claim C9: `from_string` decodes each character solely by its class —
any upper-case ASCII letter means true, any lower-case letter false, `-`
unknown — and never checks the letter's identity against the position's
own letter; two valid (letter-or-dash) strings whose characters agree
classwise decode to equal BitStates. -/
theorem c9_decode_by_class (s t : String)
    (hs : ∀ c ∈ s.data, BitMask.letterOrDash c)
    (ht : ∀ c ∈ t.data, BitMask.letterOrDash c)
    (hcl : List.Forall₂ (fun a b => BitMask.maskCharClass a = BitMask.maskCharClass b)
      s.data t.data) :
    BitMask.from_string s = BitMask.from_string t := by
  rw [BitMask.from_string_of_letterOrDash s hs, BitMask.from_string_of_letterOrDash t ht]
  rw [BitMask.parseChars_class_congr s.data t.data 0 hcl hs ht]
  rw [hcl.length_eq]

/-- Witness for C9: the distinct valid strings `A` and `B` (correct case,
different letter identity) decode to the same BitState. -/
theorem c9_decode_by_class_witness :
    BitMask.from_string "A" = BitMask.from_string "B" ∧ ("A" : String) ≠ "B" :=
  ⟨c9_decode_by_class "A" "B" (by decide) (by decide)
    (List.Forall₂.cons (by decide) List.Forall₂.nil), by decide⟩

namespace Bitplanning

theorem poolPairOk_pairwise (l : List Action) (h : poolPairOk l = true) :
    l.Pairwise (fun a b => a.is_mutex b = false ∧ b.is_mutex a = false) := by
  induction l with
  | nil => exact List.Pairwise.nil
  | cons a rest ih =>
    simp only [poolPairOk, Bool.and_eq_true, List.all_eq_true] at h
    refine List.Pairwise.cons ?_ (ih h.2)
    intro b hb
    have hx := h.1 b hb
    simp only [Bool.and_eq_true, bne_iff_ne, Bool.not_eq_true'] at hx
    obtain ⟨⟨hid, h1⟩, h2⟩ := hx
    unfold Action.in_mutex at h1 h2
    have hid1 : (a.id != b.id) = true := by simpa using hid
    have hid2 : (b.id != a.id) = true := by simpa using (Ne.symm hid)
    rw [hid1, Bool.true_and] at h1
    rw [hid2, Bool.true_and] at h2
    exact ⟨h1, h2⟩

theorem mkActionPool_some (acts : List Action) (p : ActionPool)
    (h : mkActionPool acts = some p) :
    p.actions = acts ∧ poolPairOk acts = true ∧
      BitMask.all_union (acts.map (fun a => a.must_bits)) = some p.must_bits ∧
      BitMask.all_union (acts.map (fun a => a.then_bits)) = some p.then_bits := by
  unfold mkActionPool at h
  split at h
  · cases hmu : BitMask.all_union (acts.map (fun a => a.must_bits)) with
    | none => rw [hmu] at h; simp at h
    | some mb =>
      rw [hmu] at h
      cases htu : BitMask.all_union (acts.map (fun a => a.then_bits)) with
      | none => rw [htu] at h; simp at h
      | some tb =>
        rw [htu] at h
        have hp : p = ⟨acts, mb, tb⟩ := (Option.some.inj h).symm
        subst hp
        refine ⟨rfl, by assumption, ?_, ?_⟩
        · rfl
        · rfl
  · simp at h

theorem group_actions_spec (goal : BitMask) :
    ∀ (possible included : List Action) (remaining : BitMask) (pools : List ActionPool),
      Domain.group_actions included possible remaining = some pools →
      (included = [] → remaining = goal) →
      (∀ a0, included.head? = some a0 → a0.then_bits.accomplishes_something goal ≠ 0) →
      ∀ p ∈ pools, mkActionPool p.actions = some p ∧
        ∃ a0, p.actions.head? = some a0 ∧ a0.then_bits.accomplishes_something goal ≠ 0 := by
  intro possible
  induction possible with
  | nil =>
    intro included remaining pools hg _ _ p hp
    simp only [Domain.group_actions] at hg
    have hq := Option.some.inj hg
    subst hq
    simp at hp
  | cons next rest ih =>
    intro included remaining pools hg h1 h2 p hp
    simp only [Domain.group_actions] at hg
    by_cases hmx : included.all (fun inc => !(inc.in_mutex next)) = true
    · rw [if_pos hmx] at hg
      by_cases hacc : (next.then_bits.accomplishes_something remaining != 0) = true
      · rw [if_pos hacc] at hg
        have haccn : next.then_bits.accomplishes_something remaining ≠ 0 := by
          simpa using hacc
        cases hun : remaining.unset_from_action next.then_bits false with
        | none => simp [hun] at hg
        | some next_remaining =>
          simp only [hun] at hg
          cases hpl : mkActionPool (included ++ [next]) with
          | none => simp [hpl] at hg
          | some pool =>
            simp only [hpl] at hg
            cases hsub : Domain.group_actions (included ++ [next]) rest next_remaining with
            | none => simp [hsub] at hg
            | some sub =>
              simp only [hsub] at hg
              cases hb2 : Domain.group_actions included rest remaining with
              | none => simp [hb2] at hg
              | some branch2 =>
                simp only [hb2] at hg
                have hq := Option.some.inj hg
                subst hq
                have hheadfact : ∀ a0, (included ++ [next]).head? = some a0 →
                    a0.then_bits.accomplishes_something goal ≠ 0 := by
                  intro a0 ha0
                  cases hincl : included with
                  | nil =>
                    subst hincl
                    simp only [List.nil_append, List.head?_cons] at ha0
                    have hq2 := Option.some.inj ha0
                    subst hq2
                    rw [← h1 rfl]
                    exact haccn
                  | cons a t =>
                    subst hincl
                    simp only [List.cons_append, List.head?_cons] at ha0
                    have hq2 := Option.some.inj ha0
                    subst hq2
                    exact h2 a rfl
                rcases List.mem_append.mp hp with hp1 | hp2
                · rcases List.mem_cons.mp hp1 with hpe | hpsub
                  · subst hpe
                    obtain ⟨hacts, _, _, _⟩ := mkActionPool_some _ _ hpl
                    refine ⟨by rw [hacts]; exact hpl, ?_⟩
                    cases hincl : included with
                    | nil =>
                      subst hincl
                      refine ⟨next, ?_, ?_⟩
                      · rw [hacts]
                        simp
                      · rw [← h1 rfl]
                        exact haccn
                    | cons a t =>
                      subst hincl
                      refine ⟨a, ?_, h2 a rfl⟩
                      rw [hacts]
                      simp
                  · exact ih (included ++ [next]) next_remaining sub hsub
                      (by intro hq3; simp at hq3) hheadfact p hpsub
                · exact ih included remaining branch2 hb2 h1 h2 p hp2
      · rw [if_neg hacc] at hg
        cases hb2 : Domain.group_actions included rest remaining with
        | none => simp [hb2] at hg
        | some branch2 =>
          simp only [hb2] at hg
          have hq := Option.some.inj hg
          subst hq
          rcases List.mem_append.mp hp with hp1 | hp2
          · simp at hp1
          · exact ih included remaining branch2 hb2 h1 h2 p hp2
    · rw [if_neg hmx] at hg
      cases hb2 : Domain.group_actions included rest remaining with
      | none => simp [hb2] at hg
      | some branch2 =>
        simp only [hb2] at hg
        have hq := Option.some.inj hg
        subst hq
        rcases List.mem_append.mp hp with hp1 | hp2
        · simp at hp1
        · exact ih included remaining branch2 hb2 h1 h2 p hp2

end Bitplanning

/-- Claim C3: every ActionPool returned by `strict_accomplishment_pools`
(which asserts its goal is not null) contains no two actions that are
mutex with each other, and the pool's aggregate `then_bits` accomplishes
at least one bit of the goal: `accomplishes_something(goal)` is nonzero. -/
theorem c3_pools_no_mutex_and_accomplish (d : Bitplanning.Domain) (goal : BitMask)
    (pools : List Bitplanning.ActionPool)
    (hp : d.strict_accomplishment_pools goal = some pools)
    (p : Bitplanning.ActionPool) (hmem : p ∈ pools) :
    p.actions.Pairwise (fun a b => a.is_mutex b = false ∧ b.is_mutex a = false) ∧
      p.then_bits.accomplishes_something goal ≠ 0 := by
  unfold Bitplanning.Domain.strict_accomplishment_pools at hp
  split at hp
  · simp at hp
  · have hspec := Bitplanning.group_actions_spec goal
      (d.strict_accomplishment_actions goal) [] goal pools hp
      (fun _ => rfl) (fun a0 ha0 => by simp at ha0) p hmem
    obtain ⟨hmk, a0, hhead, hacc⟩ := hspec
    obtain ⟨_, hpw, _, htu⟩ := Bitplanning.mkActionPool_some _ _ hmk
    refine ⟨Bitplanning.poolPairOk_pairwise _ hpw, ?_⟩
    obtain ⟨i, hm, hg, he⟩ := (BitMask.accomplishes_ne_zero_iff _ _).mp hacc
    have ha0mem : a0 ∈ p.actions := by
      cases hacl : p.actions with
      | nil => rw [hacl] at hhead; simp at hhead
      | cons x xs =>
        rw [hacl] at hhead
        simp only [List.head?_cons] at hhead
        have hq := Option.some.inj hhead
        rw [hq]
        exact List.mem_cons_self a0 xs
    have hagree := BitMask.all_union_agrees _ _ a0.then_bits i htu
      (List.mem_map_of_mem _ ha0mem) hm
    exact (BitMask.accomplishes_ne_zero_iff _ _).mpr
      ⟨i, hagree.1, hg, by rw [hagree.2, he]⟩

/-- Witness for C3 on the one-action domain `dPool`. -/
theorem c3_pools_no_mutex_and_accomplish_witness :
    Bitplanning.poolEx.actions.Pairwise
        (fun a b => a.is_mutex b = false ∧ b.is_mutex a = false) ∧
      Bitplanning.poolEx.then_bits.accomplishes_something Bitplanning.goalPoolEx ≠ 0 :=
  c3_pools_no_mutex_and_accomplish Bitplanning.dPool Bitplanning.goalPoolEx
    [Bitplanning.poolEx] (by decide) Bitplanning.poolEx (List.mem_cons_self _ _)

namespace Bitplanning

theorem solveStep_plan_sound (d : Domain) (start goal : BitMask) (s : SearchState)
    (seq : ActionSequence) (h : solveStep d start goal s = .plan seq) :
    start.conflicts seq.must_bits = 0 ∧ seq.then_bits.satisfies goal = true := by
  unfold solveStep at h
  cases hpop : popAt s.frontier (popIndex s.seen (s.count + 1) s.frontier.length) with
  | none => simp [hpop] at h
  | some pr =>
    obtain ⟨⟨best, sc⟩, rest⟩ := pr
    simp only [hpop] at h
    by_cases hseen : best.must_bits ∈ s.seen
    · rw [if_pos hseen] at h
      simp at h
    · rw [if_neg hseen] at h
      by_cases hcond :
          (start.conflicts best.must_bits == 0 && best.then_bits.satisfies goal) = true
      · rw [if_pos hcond] at h
        have hb : best = seq := StepResult.plan.inj h
        subst hb
        simp only [Bool.and_eq_true, beq_iff_eq] at hcond
        exact hcond
      · rw [if_neg hcond] at h
        split at h
        · exact absurd h (by simp)
        · split at h
          · exact absurd h (by simp)
          · split at h
            · exact absurd h (by simp)
            · exact absurd h (by simp)

theorem solveStep_plan_of_conditions (d : Domain) (start goal : BitMask) (s : SearchState)
    (best : ActionSequence) (sc : Score) (rest : List (ActionSequence × Score))
    (hpop : popAt s.frontier (popIndex s.seen (s.count + 1) s.frontier.length) =
      some ((best, sc), rest))
    (hseen : best.must_bits ∉ s.seen)
    (hc : start.conflicts best.must_bits = 0)
    (hs : best.then_bits.satisfies goal = true) :
    solveStep d start goal s = .plan best := by
  unfold solveStep
  simp only [hpop]
  rw [if_neg hseen]
  rw [if_pos (by simp [hc, hs])]

end Bitplanning

/-- Claim C1: plan soundness of the search loop.  Whenever `Problem.solve`
returns an ActionSequence as the plan, the true start state does not
conflict with that sequence's aggregate `must_bits` and the sequence's
aggregate `then_bits` satisfies the original goal; conversely, a selected,
not-previously-seen sequence meeting both conditions is immediately
returned as the plan, by that very iteration. -/
theorem c1_plan_soundness (d : Bitplanning.Domain) (start goal : BitMask) :
    (∀ seq : Bitplanning.ActionSequence,
      Bitplanning.solve d start goal = .plan seq →
        start.conflicts seq.must_bits = 0 ∧ seq.then_bits.satisfies goal = true) ∧
    (∀ (s : Bitplanning.SearchState) (best : Bitplanning.ActionSequence)
        (sc : Bitplanning.Score) (rest : List (Bitplanning.ActionSequence × Bitplanning.Score)),
      Bitplanning.popAt s.frontier
          (Bitplanning.popIndex s.seen (s.count + 1) s.frontier.length) =
        some ((best, sc), rest) →
      best.must_bits ∉ s.seen →
      start.conflicts best.must_bits = 0 →
      best.then_bits.satisfies goal = true →
      Bitplanning.solveStep d start goal s = .plan best ∧
        ∀ fuel : Nat, Bitplanning.solveLoop d start goal (fuel + 1) s = .plan best) := by
  have hloop : ∀ (fuel : Nat) (s : Bitplanning.SearchState) (seq : Bitplanning.ActionSequence),
      Bitplanning.solveLoop d start goal fuel s = .plan seq →
      start.conflicts seq.must_bits = 0 ∧ seq.then_bits.satisfies goal = true := by
    intro fuel
    induction fuel with
    | zero =>
      intro s seq h
      simp [Bitplanning.solveLoop] at h
    | succ n ih =>
      intro s seq h
      simp only [Bitplanning.solveLoop] at h
      cases hst : Bitplanning.solveStep d start goal s with
      | next s2 =>
        simp only [hst] at h
        exact ih s2 seq h
      | plan seq2 =>
        simp only [hst] at h
        have hq : seq2 = seq := by
          cases h
          rfl
        subst hq
        exact Bitplanning.solveStep_plan_sound d start goal s seq2 hst
      | noSolution => simp [hst] at h
      | err => simp [hst] at h
  constructor
  · intro seq h
    unfold Bitplanning.solve Bitplanning.solveWith at h
    cases hi : Bitplanning.initState d start goal with
    | none => rw [hi] at h; simp at h
    | some s0 =>
      rw [hi] at h
      exact hloop _ s0 seq h
  · intro s best sc rest hpop hseen hc hs
    have hstep := Bitplanning.solveStep_plan_of_conditions d start goal s best sc rest
      hpop hseen hc hs
    refine ⟨hstep, ?_⟩
    intro fuel
    simp only [Bitplanning.solveLoop]
    rw [hstep]

/-- Witness for C1 on the one-state, zero-action domain, where the blank
sequence is returned immediately. -/
theorem c1_plan_soundness_witness :
    Bitplanning.startTriv.conflicts Bitplanning.blankTriv.must_bits = 0 ∧
      Bitplanning.blankTriv.then_bits.satisfies Bitplanning.goalTriv = true :=
  (c1_plan_soundness Bitplanning.dTriv Bitplanning.startTriv Bitplanning.goalTriv).1
    Bitplanning.blankTriv (by decide)

namespace Bitplanning

theorem popAt_spec {α : Type} :
    ∀ (l : List α) (i : Nat) (x : α) (rest : List α),
      popAt l i = some (x, rest) → x ∈ l ∧ rest.length + 1 = l.length ∧ rest.Sublist l
  | [], i, x, rest, h => by simp [popAt] at h
  | y :: ys, 0, x, rest, h => by
    simp only [popAt] at h
    obtain ⟨h1, h2⟩ := Prod.mk.injEq .. ▸ Option.some.inj h
    subst h1
    subst h2
    exact ⟨List.mem_cons_self _ _, rfl, List.sublist_cons_self _ _⟩
  | y :: ys, n + 1, x, rest, h => by
    simp only [popAt] at h
    cases hr : popAt ys n with
    | none => rw [hr] at h; simp at h
    | some pr =>
      rw [hr] at h
      simp only [Option.map_some'] at h
      obtain ⟨h1, h2⟩ := Prod.mk.injEq .. ▸ Option.some.inj h
      obtain ⟨z, zs⟩ := pr
      obtain ⟨hm, hl, hs⟩ := popAt_spec ys n z zs hr
      subst h1
      subst h2
      exact ⟨List.mem_cons_of_mem _ hm, by simpa using hl,
        List.Sublist.cons₂ _ hs⟩

theorem popAt_some_of_lt {α : Type} :
    ∀ (l : List α) (i : Nat), i < l.length → ∃ pr, popAt l i = some pr
  | [], i, h => by simp at h
  | y :: ys, 0, _ => ⟨(y, ys), rfl⟩
  | y :: ys, n + 1, h => by
    obtain ⟨⟨z, zs⟩, hz⟩ := popAt_some_of_lt ys n (by simpa using h)
    exact ⟨(z, y :: zs), by simp [popAt, hz]⟩

theorem scoreLe_iff (s t : Score) :
    scoreLe s t = true ↔
      s.1 < t.1 ∨ (s.1 = t.1 ∧ (s.2.1 < t.2.1 ∨ (s.2.1 = t.2.1 ∧
        (s.2.2.1 < t.2.2.1 ∨ (s.2.2.1 = t.2.2.1 ∧ s.2.2.2 ≤ t.2.2.2))))) := by
  unfold scoreLe
  by_cases h1 : s.1 = t.1 <;> by_cases h2 : s.2.1 = t.2.1 <;>
    by_cases h3 : s.2.2.1 = t.2.2.1 <;> simp [h1, h2, h3] <;> try omega

theorem scoreLe_total (s t : Score) : scoreLe s t = true ∨ scoreLe t s = true := by
  rw [scoreLe_iff, scoreLe_iff]
  omega

theorem scoreLe_trans (s t u : Score) (h1 : scoreLe s t = true)
    (h2 : scoreLe t u = true) : scoreLe s u = true := by
  rw [scoreLe_iff] at h1 h2 ⊢
  omega

theorem mem_insertSortedBy {α : Type} (le : α → α → Bool) (x : α) :
    ∀ (l : List α) (y : α), y ∈ insertSortedBy le x l ↔ y = x ∨ y ∈ l
  | [], y => by simp [insertSortedBy]
  | z :: zs, y => by
    unfold insertSortedBy
    split
    · rw [List.mem_cons, mem_insertSortedBy le x zs y, List.mem_cons]
      tauto
    · simp only [List.mem_cons]

theorem insertSortedBy_sorted (x : (ActionSequence × Score))
    (l : List (ActionSequence × Score)) (hl : l.Pairwise (fun a b => scoreLe a.2 b.2 = true)) :
    (insertSortedBy (fun a b => scoreLe a.2 b.2) x l).Pairwise
      (fun a b => scoreLe a.2 b.2 = true) := by
  induction l with
  | nil => simp [insertSortedBy]
  | cons z zs ih =>
    rw [List.pairwise_cons] at hl
    unfold insertSortedBy
    split
    · rw [List.pairwise_cons]
      refine ⟨?_, ih hl.2⟩
      intro y hy
      rcases (mem_insertSortedBy _ x zs y).mp hy with rfl | hmem
      · assumption
      · exact hl.1 y hmem
    · rw [List.pairwise_cons]
      refine ⟨?_, List.Pairwise.cons hl.1 hl.2⟩
      intro y hy
      rcases List.mem_cons.mp hy with rfl | hmem
      · rcases scoreLe_total x.2 y.2 with h | h
        · exact h
        · exact absurd h (by assumption)
      · rcases scoreLe_total x.2 z.2 with h | h
        · exact scoreLe_trans _ _ _ h (hl.1 y hmem)
        · exact absurd h (by assumption)

theorem sortByScore_sorted (l : List (ActionSequence × Score)) :
    (sortByScore l).Pairwise (fun a b => scoreLe a.2 b.2 = true) := by
  have hgen : ∀ (l2 acc : List (ActionSequence × Score)),
      acc.Pairwise (fun a b => scoreLe a.2 b.2 = true) →
      (l2.foldl (fun acc2 x => insertSortedBy (fun a b => scoreLe a.2 b.2) x acc2)
        acc).Pairwise (fun a b => scoreLe a.2 b.2 = true) := by
    intro l2
    induction l2 with
    | nil => intro acc hacc; exact hacc
    | cons x xs ih =>
      intro acc hacc
      exact ih _ (insertSortedBy_sorted x acc hacc)
  exact hgen l [] List.Pairwise.nil

end Bitplanning

namespace Bitplanning

theorem initState_shape (d : Domain) (start goal : BitMask) (s : SearchState)
    (h : initState d start goal = some s) :
    s.count = 0 ∧ s.skipped = 0 ∧ s.seen = [] ∧ ∃ e, s.frontier = [e] := by
  unfold initState at h
  cases hmk : mkActionSequence [goalPool goal] (BitMask.null d.width) with
  | none => simp [hmk] at h
  | some blank =>
    simp only [hmk] at h
    cases hsc : Domain.score_accomplishment_pool blank goal start with
    | none => simp [hsc] at h
    | some sc =>
      simp only [hsc] at h
      have hq : (⟨[(blank, sc)], [], 0, 0⟩ : SearchState) = s := Option.some.inj h
      subst hq
      exact ⟨rfl, rfl, rfl, (blank, sc), rfl⟩

theorem solveStep_next_inv (d : Domain) (start goal : BitMask) (s s2 : SearchState)
    (h : solveStep d start goal s = .next s2) :
    s2.count = s.count + 1 ∧ s2.seen ≠ [] ∧
      (s.frontier.Pairwise (fun a b => scoreLe a.2 b.2 = true) →
        s2.frontier.Pairwise (fun a b => scoreLe a.2 b.2 = true)) := by
  unfold solveStep at h
  cases hpop : popAt s.frontier (popIndex s.seen (s.count + 1) s.frontier.length) with
  | none => simp [hpop] at h
  | some pr =>
    obtain ⟨⟨best, sc⟩, rest⟩ := pr
    simp only [hpop] at h
    by_cases hseen : best.must_bits ∈ s.seen
    · rw [if_pos hseen] at h
      have hq : (⟨rest, s.seen, s.count + 1, s.skipped + 1⟩ : SearchState) = s2 :=
        StepResult.next.inj h
      subst hq
      refine ⟨rfl, List.ne_nil_of_mem hseen, ?_⟩
      intro hsort
      exact hsort.sublist (popAt_spec s.frontier _ _ rest hpop).2.2
    · rw [if_neg hseen] at h
      by_cases hcond :
          (start.conflicts best.must_bits == 0 && best.then_bits.satisfies goal) = true
      · rw [if_pos hcond] at h
        simp at h
      · rw [if_neg hcond] at h
        split at h
        · simp at h
        · split at h
          · simp at h
          · split at h
            · simp at h
            · have hq : (_ : SearchState) = s2 := StepResult.next.inj h
              subst hq
              exact ⟨rfl, by simp, fun _ => sortByScore_sorted _⟩

theorem runState_inv (d : Domain) (start goal : BitMask) :
    ∀ (n : Nat) (s : SearchState), runState d start goal n = some s →
      s.count = n ∧ (s.seen = [] ↔ n = 0) ∧
        s.frontier.Pairwise (fun a b => scoreLe a.2 b.2 = true)
  | 0, s, h => by
    obtain ⟨hc, _, hseen, e, hf⟩ := initState_shape d start goal s h
    refine ⟨hc, by simp [hseen], ?_⟩
    rw [hf]
    exact List.pairwise_singleton _ _
  | n + 1, s, h => by
    unfold runState at h
    cases hr : runState d start goal n with
    | none => simp [hr] at h
    | some s1 =>
      simp only [hr] at h
      cases hst : solveStep d start goal s1 with
      | next s2 =>
        simp only [hst] at h
        have hq : s2 = s := Option.some.inj h
        subst hq
        obtain ⟨hc1, _, hsort1⟩ := runState_inv d start goal n s1 hr
        obtain ⟨hc2, hne2, hsort2⟩ := solveStep_next_inv d start goal s1 s2 hst
        refine ⟨by rw [hc2, hc1], by simp [hne2], hsort2 hsort1⟩
      | plan seq => simp [hst] at h
      | noSolution => simp [hst] at h
      | err => simp [hst] at h

end Bitplanning

/-- Claim C6 (corrected): the frontier selection rule.  The popped index is
the middle of the frontier whenever the seen set is nonempty and the
iteration counter is a multiple of 5, and the front otherwise — the seen
set is nonempty from the end of the first iteration of every run onward
(whether or not any duplicate was ever revisited), so from the second
iteration on every 5th iteration pops the middle element; in all other
iterations the first element of the ascending-sorted frontier is popped. -/
theorem c6_frontier_selection (d : Bitplanning.Domain) (start goal : BitMask) :
    (∀ s : Bitplanning.SearchState,
      Bitplanning.popIndex s.seen (s.count + 1) s.frontier.length =
        if s.seen ≠ [] ∧ (s.count + 1) % 5 = 0 then s.frontier.length / 2 else 0) ∧
    (∀ (n : Nat) (s : Bitplanning.SearchState),
      Bitplanning.runState d start goal n = some s →
        s.count = n ∧ (s.seen = [] ↔ n = 0) ∧
          s.frontier.Pairwise (fun a b => Bitplanning.scoreLe a.2 b.2 = true)) ∧
    (∀ (s : Bitplanning.SearchState), ¬(s.seen ≠ [] ∧ (s.count + 1) % 5 = 0) →
      ∀ (e : Bitplanning.ActionSequence × Bitplanning.Score)
        (es : List (Bitplanning.ActionSequence × Bitplanning.Score)),
        s.frontier = e :: es →
        Bitplanning.popAt s.frontier
            (Bitplanning.popIndex s.seen (s.count + 1) s.frontier.length) =
          some (e, es)) := by
  refine ⟨?_, Bitplanning.runState_inv d start goal, ?_⟩
  · intro s
    unfold Bitplanning.popIndex
    by_cases h1 : s.seen = [] <;> by_cases h2 : (s.count + 1) % 5 = 0 <;>
      simp [h1, h2, List.isEmpty_iff]
  · intro s hnot e es hf
    have hidx : Bitplanning.popIndex s.seen (s.count + 1) s.frontier.length = 0 := by
      unfold Bitplanning.popIndex
      by_cases h1 : s.seen = []
      · simp [h1, List.isEmpty_iff]
      · have h2 : ¬ (s.count + 1) % 5 = 0 := fun hc => hnot ⟨h1, hc⟩
        simp [h1, h2, List.isEmpty_iff]
    rw [hidx, hf]
    rfl

/-- Witness for C6 at a concrete search state whose frontier holds one
element outside a 5th iteration: the front element is popped. -/
theorem c6_frontier_selection_witness :
    Bitplanning.popAt
        (⟨[(Bitplanning.blankTriv, (0, 0, 0, 0))], [], 0, 0⟩ :
          Bitplanning.SearchState).frontier
        (Bitplanning.popIndex [] 1 1) =
      some ((Bitplanning.blankTriv, (0, 0, 0, 0)), []) :=
  (c6_frontier_selection Bitplanning.dTriv Bitplanning.startTriv Bitplanning.goalTriv).2.2
    (⟨[(Bitplanning.blankTriv, (0, 0, 0, 0))], [], 0, 0⟩ : Bitplanning.SearchState)
    (by simp) (Bitplanning.blankTriv, (0, 0, 0, 0)) [] rfl

/-- Counterexample to C6 as stated: in the compiled example domain the 5th
iteration pops the middle element of a 3-element frontier although no
duplicate has been revisited (the skipped counter is still 0), and that
element is not the lowest-scored first element. -/
theorem c6_frontier_selection_cex :
    Bitplanning.compile Bitplanning.exampleStates [] Bitplanning.exampleRawActions =
        Except.ok Bitplanning.exampleDom ∧
      (Bitplanning.runState Bitplanning.exampleDom Bitplanning.exampleStart
            Bitplanning.exampleGoal 4).map
          (fun s => (s.skipped, s.count, s.frontier.length,
            Bitplanning.popIndex s.seen (s.count + 1) s.frontier.length,
            decide (s.frontier[1]? = s.frontier[0]?))) =
        some (0, 4, 3, 1, false) := by
  constructor
  · rfl
  · rfl

/-- Claim C7 (corrected): compiling a domain with the constraint
`p ⇒ not q` and an action requiring `p, q` raises `IncompatibleConstraints`
during compilation (so never during search), and the error carries the
offending constraint, the state at the time of conflict and the implied
bit; the action being compiled however is attached only when the conflict
arises while propagating the action's `then` clause — for a precondition
(`must`) conflict as in this scenario the error's action field is `None`,
as the second conjunct's effect-clause scenario shows by contrast. -/
theorem c7_constraint_conflict :
    Bitplanning.compile ["p", "q"] [Bitplanning.cpConstraint] [Bitplanning.cpAction] =
      .error (.incompatibleConstraints Bitplanning.cpConstraint (BitMask.make 3 3 2) "q"
        (BitMask.make 0 2 2) none) ∧
    Bitplanning.compile ["p", "q"] [Bitplanning.cpConstraintThen] [Bitplanning.cpActionThen] =
      .error (.incompatibleConstraints Bitplanning.cpConstraintThen (BitMask.make 2 3 2) "p"
        (BitMask.make 1 1 2) (some "go")) := by
  constructor
  · rfl
  · rfl

/-- Counterexample to C7 as stated: in the claim's very scenario the raised
error does not carry the action being compiled — the conflict arises while
propagating the action's preconditions, which the code does not wrap, so
the action field is `None` even though the action `go` was being
compiled. -/
theorem c7_constraint_conflict_cex :
    Bitplanning.compile ["p", "q"] [Bitplanning.cpConstraint] [Bitplanning.cpAction] =
      .error (.incompatibleConstraints Bitplanning.cpConstraint (BitMask.make 3 3 2) "q"
        (BitMask.make 0 2 2) none) ∧
    (none : Option String) ≠ some "go" := by
  refine ⟨rfl, ?_⟩
  simp

theorem and_lt_two_pow_left {a b w : Nat} (ha : a < 2 ^ w) : a &&& b < 2 ^ w :=
  Nat.lt_of_le_of_lt Nat.and_le_left ha

theorem andNot_lt_two_pow {a : Nat} (b : Nat) {w : Nat} (ha : a < 2 ^ w) :
    andNot a b < 2 ^ w := by
  apply lt_two_pow_of_high_testBit
  intro i hi
  rw [testBit_andNot, Nat.testBit_lt_two_pow (Nat.lt_of_lt_of_le ha (Nat.pow_le_pow_right (by norm_num) hi))]
  rfl

theorem xor_lt_two_pow {a b w : Nat} (ha : a < 2 ^ w) (hb : b < 2 ^ w) :
    a ^^^ b < 2 ^ w := by
  apply lt_two_pow_of_high_testBit
  intro i hi
  have hp : 2 ^ w ≤ 2 ^ i := Nat.pow_le_pow_right (by norm_num) hi
  rw [Nat.testBit_xor, Nat.testBit_lt_two_pow (Nat.lt_of_lt_of_le ha hp),
    Nat.testBit_lt_two_pow (Nat.lt_of_lt_of_le hb hp)]
  rfl

namespace BitMask

theorem valid_make {m w : Nat} (b : Nat) (hm : m < 2 ^ w) : (make b m w).valid w :=
  ⟨rfl, hm, make_maskInvariant b m w⟩

theorem valid_null (w : Nat) : (null w).valid w :=
  valid_make 0 (Nat.pos_pow_of_pos w (by norm_num))

theorem valid_unsetCore {a : BitMask} (b : BitMask) {w : Nat} (ha : a.valid w) :
    (a.unsetCore b).valid w := by
  obtain ⟨hw, hm, _⟩ := ha
  rw [← hw]
  exact valid_make _ (andNot_lt_two_pow _ (hw ▸ hm))

theorem valid_except_satisfied_by {a : BitMask} (b : BitMask) {w : Nat} (ha : a.valid w) :
    (a.except_satisfied_by b).valid w := by
  obtain ⟨hw, hm, _⟩ := ha
  rw [← hw]
  exact valid_make _ (andNot_lt_two_pow _ (hw ▸ hm))

theorem valid_carry_forward {a b : BitMask} {w : Nat} (ha : a.valid w) (hb : b.valid w) :
    (a.carry_forward b).valid w := by
  obtain ⟨hw, hm, _⟩ := ha
  obtain ⟨_, hmb, _⟩ := hb
  rw [← hw]
  exact valid_make _ (Nat.or_lt_two_pow (hw ▸ hmb) (hw ▸ hm))

theorem valid_all_union {items : List BitMask} {u : BitMask} {w : Nat}
    (hv : ∀ a ∈ items, a.valid w) (hu : all_union items = some u) : u.valid w := by
  obtain ⟨hpw, last, hl, hue⟩ := all_union_some_spec items u hu
  have hlast : last ∈ items := mem_of_getLastSome hl
  have hwlast : last.width = w := (hv last hlast).1
  subst hue
  rw [← hwlast]
  apply valid_make
  apply lt_two_pow_of_high_testBit
  intro i hi
  unfold unionFold
  rw [unionFoldGo_mask_testBit]
  simp only [Nat.zero_testBit, Bool.false_or]
  rw [List.any_eq_false]
  intro it hit
  have hmit : it.mask < 2 ^ last.width :=
    hwlast ▸ (hv it hit).2.1
  simp [Nat.testBit_lt_two_pow
    (Nat.lt_of_lt_of_le hmit (Nat.pow_le_pow_right (by norm_num) hi))]

theorem valid_union {a b u : BitMask} {w : Nat} (ha : a.valid w) (hb : b.valid w)
    (hu : a.union b = some u) : u.valid w := by
  refine valid_all_union ?_ hu
  intro x hx
  rcases List.mem_cons.mp hx with hx1 | hx2
  · subst hx1
    exact ha
  · rcases List.mem_cons.mp hx2 with hx3 | hx4
    · subst hx3
      exact hb
    · simp at hx4

end BitMask

namespace Bitplanning

theorem optMap_length {α β : Type} (f : α → Option β) :
    ∀ (l : List α) (res : List β), optMap f l = some res → res.length = l.length
  | [], res, h => by
    have hq : ([] : List β) = res := Option.some.inj h
    subst hq
    rfl
  | x :: xs, res, h => by
    unfold optMap at h
    cases hf : f x with
    | none => rw [hf] at h; simp at h
    | some y =>
      rw [hf] at h
      cases hrest : optMap f xs with
      | none => rw [hrest] at h; simp at h
      | some ys =>
        rw [hrest] at h
        have hq : y :: ys = res := Option.some.inj h
        subst hq
        simp [optMap_length f xs ys hrest]

theorem optMap_mem {α β : Type} (f : α → Option β) :
    ∀ (l : List α) (res : List β), optMap f l = some res →
      ∀ y ∈ res, ∃ x ∈ l, f x = some y
  | [], res, h => by
    have hq : ([] : List β) = res := Option.some.inj h
    subst hq
    simp
  | x :: xs, res, h => by
    unfold optMap at h
    cases hf : f x with
    | none => rw [hf] at h; simp at h
    | some y =>
      rw [hf] at h
      cases hrest : optMap f xs with
      | none => rw [hrest] at h; simp at h
      | some ys =>
        rw [hrest] at h
        have hq : y :: ys = res := Option.some.inj h
        subst hq
        intro z hz
        rcases List.mem_cons.mp hz with hz1 | hz2
        · subst hz1
          exact ⟨x, List.mem_cons_self x xs, hf⟩
        · obtain ⟨x2, hx2, hfx2⟩ := optMap_mem f xs ys hrest z hz2
          exact ⟨x2, List.mem_cons_of_mem _ hx2, hfx2⟩

theorem insertSortedBy_length {α : Type} (le : α → α → Bool) (x : α) :
    ∀ l : List α, (insertSortedBy le x l).length = l.length + 1
  | [] => rfl
  | y :: ys => by
    unfold insertSortedBy
    split
    · simp [insertSortedBy_length le x ys]
    · rfl

theorem sortByScore_length (l : List (ActionSequence × Score)) :
    (sortByScore l).length = l.length := by
  have hgen : ∀ (l2 acc : List (ActionSequence × Score)),
      (l2.foldl (fun acc2 x => insertSortedBy (fun a b => scoreLe a.2 b.2) x acc2)
        acc).length = acc.length + l2.length := by
    intro l2
    induction l2 with
    | nil => intro acc; simp
    | cons x xs ih =>
      intro acc
      rw [List.foldl_cons, ih, insertSortedBy_length, List.length_cons]
      omega
  have := hgen l []
  unfold sortByScore sortListBy
  rw [this]
  simp

theorem sortByScore_mem (l : List (ActionSequence × Score))
    (y : ActionSequence × Score) : y ∈ sortByScore l ↔ y ∈ l := by
  have hgen : ∀ (l2 acc : List (ActionSequence × Score)),
      y ∈ l2.foldl (fun acc2 x => insertSortedBy (fun a b => scoreLe a.2 b.2) x acc2) acc ↔
        y ∈ acc ∨ y ∈ l2 := by
    intro l2
    induction l2 with
    | nil => intro acc; simp
    | cons x xs ih =>
      intro acc
      rw [List.foldl_cons, ih, mem_insertSortedBy]
      simp only [List.mem_cons]
      tauto
  unfold sortByScore sortListBy
  rw [hgen l []]
  simp

theorem seen_length_le (w : Nat) (l : List BitMask)
    (hv : ∀ b ∈ l, b.valid w) (hnd : l.Nodup) : l.length ≤ 4 ^ w := by
  have hmap : (l.map (fun b => b.bits + 2 ^ w * b.mask)).Nodup := by
    refine List.Nodup.map_on ?_ hnd
    intro a ha b hb heq
    obtain ⟨hwa, hma, hia⟩ := hv a ha
    obtain ⟨hwb, hmb, hib⟩ := hv b hb
    have hba : a.bits < 2 ^ w := Nat.lt_of_le_of_lt (hia ▸ Nat.and_le_right) hma
    have hbb : b.bits < 2 ^ w := Nat.lt_of_le_of_lt (hib ▸ Nat.and_le_right) hmb
    have hmod := congrArg (fun x => x % 2 ^ w) heq
    simp only [Nat.add_mul_mod_self_left] at hmod
    rw [Nat.mod_eq_of_lt hba, Nat.mod_eq_of_lt hbb] at hmod
    have h1 : a.bits = b.bits := hmod
    have h2 : a.mask = b.mask := by
      rw [h1] at heq
      exact Nat.eq_of_mul_eq_mul_left (Nat.pos_pow_of_pos w (by norm_num))
        (Nat.add_left_cancel heq)
    have h3 : a.width = b.width := by rw [hwa, hwb]
    cases a
    cases b
    simp only [BitMask.mk.injEq]
    exact ⟨h1, h2, h3⟩
  have hlt : ∀ x ∈ l.map (fun b => b.bits + 2 ^ w * b.mask), x < 4 ^ w := by
    intro x hx
    obtain ⟨b, hb, rfl⟩ := List.mem_map.mp hx
    obtain ⟨hwb, hmb, hib⟩ := hv b hb
    have hbb : b.bits < 2 ^ w := Nat.lt_of_le_of_lt (hib ▸ Nat.and_le_right) hmb
    have h4 : 4 ^ w = 2 ^ w * 2 ^ w := by
      rw [show (4 : Nat) = 2 * 2 by norm_num, Nat.mul_pow]
    rw [h4]
    calc b.bits + 2 ^ w * b.mask < 2 ^ w + 2 ^ w * b.mask := by omega
      _ = 2 ^ w * (b.mask + 1) := by ring
      _ ≤ 2 ^ w * 2 ^ w := Nat.mul_le_mul_left _ (by omega)
  have hlen : l.length = (l.map (fun b => b.bits + 2 ^ w * b.mask)).length := by simp
  rw [hlen]
  rw [← List.toFinset_card_of_nodup hmap]
  have hsub : (l.map (fun b => b.bits + 2 ^ w * b.mask)).toFinset ⊆ Finset.range (4 ^ w) := by
    intro x hx
    rw [Finset.mem_range]
    exact hlt x (List.mem_toFinset.mp hx)
  have := Finset.card_le_card hsub
  simpa using this

end Bitplanning

namespace Bitplanning

theorem seqMustFold_valid (w : Nat) :
    ∀ (pools : List ActionPool) (acc r : BitMask),
      (∀ p ∈ pools, p.OK w) → acc.valid w → seqMustFold pools acc = some r → r.valid w
  | [], acc, r, _, hacc, h => by
    have hq : acc = r := Option.some.inj h
    subst hq
    exact hacc
  | pool :: rest, acc, r, hok, hacc, h => by
    simp only [seqMustFold] at h
    by_cases h1 : (pool.then_bits.conflicts acc != 0) = true
    · rw [if_pos h1] at h
      simp at h
    · rw [if_neg h1] at h
      by_cases h2 :
          (pool.must_bits.conflicts (acc.except_satisfied_by pool.then_bits) != 0) = true
      · rw [if_pos h2] at h
        simp at h
      · rw [if_neg h2] at h
        cases hu : pool.must_bits.union (acc.except_satisfied_by pool.then_bits) with
        | none => rw [hu] at h; simp at h
        | some u =>
          simp only [hu] at h
          exact seqMustFold_valid w rest u r
            (fun p hp => hok p (List.mem_cons_of_mem _ hp))
            (BitMask.valid_union (hok pool (List.mem_cons_self pool rest)).1
              (BitMask.valid_except_satisfied_by _ hacc) hu) h

theorem mkActionSequence_OK (w : Nat) (pools : List ActionPool) (nl : BitMask)
    (seq : ActionSequence) (hok : ∀ p ∈ pools, p.OK w) (hnl : nl = BitMask.null w)
    (h : mkActionSequence pools nl = some seq) : seq.OK w := by
  unfold mkActionSequence at h
  cases hm : seqMustFold pools.reverse nl with
  | none => rw [hm] at h; simp at h
  | some mb =>
    simp only [hm] at h
    cases ht : seqThenFold pools nl with
    | none => rw [ht] at h; simp at h
    | some tb =>
      simp only [ht] at h
      have hq : (⟨pools, nl, mb, tb⟩ : ActionSequence) = seq := Option.some.inj h
      subst hq
      refine ⟨hnl, ?_, hok⟩
      exact seqMustFold_valid w pools.reverse nl mb
        (fun p hp => hok p (List.mem_reverse.mp hp)) (hnl ▸ BitMask.valid_null w) hm

theorem group_actions_subset (S : List Action) :
    ∀ (possible included : List Action) (remaining : BitMask) (pools : List ActionPool),
      Domain.group_actions included possible remaining = some pools →
      (∀ a ∈ included, a ∈ S) → (∀ a ∈ possible, a ∈ S) →
      ∀ p ∈ pools, ∀ a ∈ p.actions, a ∈ S
  | [], included, remaining, pools, hg, _, _ => by
    simp only [Domain.group_actions] at hg
    have hq : ([] : List ActionPool) = pools := Option.some.inj hg
    subst hq
    simp
  | next :: rest, included, remaining, pools, hg, hincl, hposs => by
    simp only [Domain.group_actions] at hg
    by_cases hmx : included.all (fun inc => !(inc.in_mutex next)) = true
    · rw [if_pos hmx] at hg
      by_cases hacc : (next.then_bits.accomplishes_something remaining != 0) = true
      · rw [if_pos hacc] at hg
        cases hun : remaining.unset_from_action next.then_bits false with
        | none => simp [hun] at hg
        | some next_remaining =>
          simp only [hun] at hg
          cases hpl : mkActionPool (included ++ [next]) with
          | none => simp [hpl] at hg
          | some pool =>
            simp only [hpl] at hg
            cases hsub : Domain.group_actions (included ++ [next]) rest next_remaining with
            | none => simp [hsub] at hg
            | some sub =>
              simp only [hsub] at hg
              cases hb2 : Domain.group_actions included rest remaining with
              | none => simp [hb2] at hg
              | some branch2 =>
                simp only [hb2] at hg
                have hq := Option.some.inj hg
                subst hq
                have hincl2 : ∀ a ∈ included ++ [next], a ∈ S := by
                  intro a ha
                  rcases List.mem_append.mp ha with ha1 | ha2
                  · exact hincl a ha1
                  · rw [List.mem_singleton.mp ha2]
                    exact hposs next (List.mem_cons_self next rest)
                intro p hp a ha
                rcases List.mem_append.mp hp with hp1 | hp2
                · rcases List.mem_cons.mp hp1 with hpe | hpsub
                  · subst hpe
                    obtain ⟨hacts, _, _, _⟩ := mkActionPool_some _ _ hpl
                    rw [hacts] at ha
                    exact hincl2 a ha
                  · exact group_actions_subset S rest (included ++ [next]) next_remaining
                      sub hsub hincl2
                      (fun x hx => hposs x (List.mem_cons_of_mem _ hx)) p hpsub a ha
                · exact group_actions_subset S rest included remaining branch2 hb2 hincl
                    (fun x hx => hposs x (List.mem_cons_of_mem _ hx)) p hp2 a ha
      · rw [if_neg hacc] at hg
        cases hb2 : Domain.group_actions included rest remaining with
        | none => simp [hb2] at hg
        | some branch2 =>
          simp only [hb2] at hg
          have hq := Option.some.inj hg
          subst hq
          intro p hp a ha
          rcases List.mem_append.mp hp with hp1 | hp2
          · simp at hp1
          · exact group_actions_subset S rest included remaining branch2 hb2 hincl
              (fun x hx => hposs x (List.mem_cons_of_mem _ hx)) p hp2 a ha
    · rw [if_neg hmx] at hg
      cases hb2 : Domain.group_actions included rest remaining with
      | none => simp [hb2] at hg
      | some branch2 =>
        simp only [hb2] at hg
        have hq := Option.some.inj hg
        subst hq
        intro p hp a ha
        rcases List.mem_append.mp hp with hp1 | hp2
        · simp at hp1
        · exact group_actions_subset S rest included remaining branch2 hb2 hincl
            (fun x hx => hposs x (List.mem_cons_of_mem _ hx)) p hp2 a ha

theorem group_actions_length :
    ∀ (possible included : List Action) (remaining : BitMask) (pools : List ActionPool),
      Domain.group_actions included possible remaining = some pools →
      pools.length + 1 ≤ 2 ^ possible.length
  | [], included, remaining, pools, hg => by
    simp only [Domain.group_actions] at hg
    have hq : ([] : List ActionPool) = pools := Option.some.inj hg
    subst hq
    simp
  | next :: rest, included, remaining, pools, hg => by
    simp only [Domain.group_actions] at hg
    have hpow : (2 : Nat) ^ (next :: rest).length = 2 ^ rest.length * 2 := by
      rw [List.length_cons, Nat.pow_succ]
    by_cases hmx : included.all (fun inc => !(inc.in_mutex next)) = true
    · rw [if_pos hmx] at hg
      by_cases hacc : (next.then_bits.accomplishes_something remaining != 0) = true
      · rw [if_pos hacc] at hg
        cases hun : remaining.unset_from_action next.then_bits false with
        | none => simp [hun] at hg
        | some next_remaining =>
          simp only [hun] at hg
          cases hpl : mkActionPool (included ++ [next]) with
          | none => simp [hpl] at hg
          | some pool =>
            simp only [hpl] at hg
            cases hsub : Domain.group_actions (included ++ [next]) rest next_remaining with
            | none => simp [hsub] at hg
            | some sub =>
              simp only [hsub] at hg
              cases hb2 : Domain.group_actions included rest remaining with
              | none => simp [hb2] at hg
              | some branch2 =>
                simp only [hb2] at hg
                have hq := Option.some.inj hg
                subst hq
                have hs := group_actions_length rest (included ++ [next]) next_remaining
                  sub hsub
                have hb := group_actions_length rest included remaining branch2 hb2
                rw [hpow]
                simp only [List.length_append, List.length_cons]
                omega
      · rw [if_neg hacc] at hg
        cases hb2 : Domain.group_actions included rest remaining with
        | none => simp [hb2] at hg
        | some branch2 =>
          simp only [hb2] at hg
          have hq := Option.some.inj hg
          subst hq
          have hb := group_actions_length rest included remaining branch2 hb2
          rw [hpow]
          simp only [List.nil_append]
          omega
    · rw [if_neg hmx] at hg
      cases hb2 : Domain.group_actions included rest remaining with
      | none => simp [hb2] at hg
      | some branch2 =>
        simp only [hb2] at hg
        have hq := Option.some.inj hg
        subst hq
        have hb := group_actions_length rest included remaining branch2 hb2
        rw [hpow]
        simp only [List.nil_append]
        omega

theorem strict_pools_OK (d : Domain) (hwf : d.WF) (g : BitMask)
    (pools : List ActionPool) (hp : d.strict_accomplishment_pools g = some pools) :
    ∀ p ∈ pools, p.OK d.width := by
  unfold Domain.strict_accomplishment_pools at hp
  split at hp
  · simp at hp
  · intro p hmem
    have hsub := group_actions_subset d.actions (d.strict_accomplishment_actions g) []
      g pools hp (by simp) (fun a ha => List.mem_of_mem_filter ha) p hmem
    have hspec := group_actions_spec g (d.strict_accomplishment_actions g) [] g pools hp
      (fun _ => rfl) (fun a0 ha0 => by simp at ha0) p hmem
    obtain ⟨hmk, _⟩ := hspec
    obtain ⟨_, _, hmu, htu⟩ := mkActionPool_some _ _ hmk
    constructor
    · refine BitMask.valid_all_union ?_ hmu
      intro x hx
      obtain ⟨a, ha, rfl⟩ := List.mem_map.mp hx
      exact (hwf a (hsub a ha)).1
    · refine BitMask.valid_all_union ?_ htu
      intro x hx
      obtain ⟨a, ha, rfl⟩ := List.mem_map.mp hx
      exact (hwf a (hsub a ha)).2

theorem strict_pools_length (d : Domain) (g : BitMask)
    (pools : List ActionPool) (hp : d.strict_accomplishment_pools g = some pools) :
    pools.length + 1 ≤ poolBound d := by
  unfold Domain.strict_accomplishment_pools at hp
  split at hp
  · simp at hp
  · have hlen := group_actions_length (d.strict_accomplishment_actions g) [] g pools hp
    have hfilter : (d.strict_accomplishment_actions g).length ≤ d.actions.length :=
      List.length_filter_le _ _
    calc pools.length + 1 ≤ 2 ^ (d.strict_accomplishment_actions g).length := hlen
      _ ≤ 2 ^ d.actions.length := Nat.pow_le_pow_right (by norm_num) hfilter

end Bitplanning

namespace Bitplanning

theorem solveStep_next_measure (d : Domain) (start goal : BitMask) (hwf : d.WF)
    (s s2 : SearchState) (h : solveStep d start goal s = .next s2)
    (hok : s.OK d.width) : s2.OK d.width ∧ potential d s2 < potential d s := by
  obtain ⟨hfr, hseenv, hnd⟩ := hok
  unfold solveStep at h
  cases hpop : popAt s.frontier (popIndex s.seen (s.count + 1) s.frontier.length) with
  | none => simp [hpop] at h
  | some pr =>
    obtain ⟨⟨best, sc⟩, rest⟩ := pr
    simp only [hpop] at h
    obtain ⟨hbmem, hrl, hrsub⟩ := popAt_spec _ _ _ _ hpop
    by_cases hseen : best.must_bits ∈ s.seen
    · rw [if_pos hseen] at h
      have hq : (⟨rest, s.seen, s.count + 1, s.skipped + 1⟩ : SearchState) = s2 :=
        StepResult.next.inj h
      subst hq
      refine ⟨⟨fun e he => hfr e (hrsub.subset he), hseenv, hnd⟩, ?_⟩
      unfold potential
      simp only
      omega
    · rw [if_neg hseen] at h
      by_cases hcond :
          (start.conflicts best.must_bits == 0 && best.then_bits.satisfies goal) = true
      · rw [if_pos hcond] at h
        simp at h
      · rw [if_neg hcond] at h
        cases hp : d.strict_accomplishment_pools best.must_bits with
        | none => simp [hp] at h
        | some pools =>
          simp only [hp] at h
          cases hns : optMap best.with_prepend pools with
          | none => simp [hns] at h
          | some new_seqs =>
            simp only [hns] at h
            split at h
            · simp at h
            · rename_i scored heq
              have hq := StepResult.next.inj h
              subst hq
              have hbok : best.OK d.width := hfr (best, sc) hbmem
              have hpoolsOK := strict_pools_OK d hwf best.must_bits pools hp
              have hscOK : ∀ y ∈ scored, y.1.OK d.width := by
                intro y hy
                obtain ⟨sq, hsq, hfy⟩ := optMap_mem _ _ _ heq y hy
                obtain ⟨sc2, hsc2, hpair⟩ := Option.map_eq_some'.mp hfy
                have hy1 : y.1 = sq := by rw [← hpair]
                rw [hy1]
                have hsq2 : sq ∈ new_seqs := List.mem_of_mem_filter hsq
                obtain ⟨pool, hpool, hwp⟩ := optMap_mem _ _ _ hns sq hsq2
                unfold ActionSequence.with_prepend at hwp
                refine mkActionSequence_OK d.width (pool :: best.actions) best.null sq
                  ?_ hbok.1 hwp
                intro p hpmem
                rcases List.mem_cons.mp hpmem with hp1 | hp2
                · subst hp1
                  exact hpoolsOK p hpool
                · exact hbok.2.2 p hp2
              have hscored_len : scored.length ≤ poolBound d - 1 := by
                have h1 : scored.length =
                    (new_seqs.filter (fun sq =>
                      !(decide (sq.must_bits ∈ best.must_bits :: s.seen)))).length :=
                  optMap_length _ _ _ heq
                have h2 := List.length_filter_le
                  (fun sq : ActionSequence =>
                    !(decide (sq.must_bits ∈ best.must_bits :: s.seen))) new_seqs
                have h3 : new_seqs.length = pools.length := optMap_length _ _ _ hns
                have h4 := strict_pools_length d best.must_bits pools hp
                omega
              have hseen2 : (best.must_bits :: s.seen).length ≤ 4 ^ d.width := by
                refine seen_length_le d.width _ ?_ (List.Nodup.cons hseen hnd)
                intro b hb
                rcases List.mem_cons.mp hb with hb1 | hb2
                · subst hb1
                  exact hbok.2.1
                · exact hseenv b hb2
              refine ⟨⟨?_, ?_, List.Nodup.cons hseen hnd⟩, ?_⟩
              · intro e he
                rcases List.mem_append.mp ((sortByScore_mem _ e).mp he) with he1 | he2
                · exact hfr e (hrsub.subset he1)
                · exact hscOK e he2
              · intro b hb
                rcases List.mem_cons.mp hb with hb1 | hb2
                · subst hb1
                  exact hbok.2.1
                · exact hseenv b hb2
              · unfold potential
                simp only [sortByScore_length, List.length_append, List.length_cons]
                have hP : 1 ≤ poolBound d := Nat.pos_pow_of_pos _ (by norm_num)
                have hseenlen : s.seen.length + 1 ≤ 4 ^ d.width := by
                  simpa using hseen2
                have hmul : poolBound d * (4 ^ d.width - s.seen.length) =
                    poolBound d * (4 ^ d.width - (s.seen.length + 1)) + poolBound d := by
                  have hstep : 4 ^ d.width - s.seen.length =
                      (4 ^ d.width - (s.seen.length + 1)) + 1 := by omega
                  rw [hstep, Nat.mul_add, Nat.mul_one]
                omega

theorem solveLoop_no_fuelOut (d : Domain) (start goal : BitMask) (hwf : d.WF) :
    ∀ (fuel : Nat) (s : SearchState), s.OK d.width → potential d s < fuel →
      solveLoop d start goal fuel s ≠ .fuelOut
  | 0, s, _, hlt => by omega
  | fuel + 1, s, hok, hlt => by
    simp only [solveLoop]
    cases hst : solveStep d start goal s with
    | next s2 =>
      obtain ⟨hok2, hdec⟩ := solveStep_next_measure d start goal hwf s s2 hst hok
      exact solveLoop_no_fuelOut d start goal hwf fuel s2 hok2 (by omega)
    | plan seq => simp
    | noSolution => simp
    | err => simp

end Bitplanning

namespace BitMask

theorem valid_add {a : BitMask} {pos : Nat} {bit force : Bool} {r : BitMask} {w : Nat}
    (ha : a.valid w) (hp : pos < 2 ^ w) (h : a.add pos bit force = some r) : r.valid w := by
  unfold add at h
  by_cases hg : (!force && (pos &&& a.mask != 0) &&
      ((pos &&& a.bits) != (if bit then pos else 0))) = true
  · rw [if_pos hg] at h
    exact Option.noConfusion h
  · rw [if_neg hg] at h
    have hq := Option.some.inj h
    subst hq
    obtain ⟨hw, hm, _⟩ := ha
    rw [hw]
    exact valid_make _ (Nat.or_lt_two_pow hm hp)

end BitMask

theorem lookup_pair_mem : ∀ (l : List (String × Nat)) (k : String) (v : Nat),
    List.lookup k l = some v → (k, v) ∈ l
  | [], _, _, h => by simp [List.lookup] at h
  | (k2, v2) :: rest, k, v, h => by
    cases hk : k == k2 with
    | true =>
      simp only [List.lookup, hk] at h
      have h1 : k = k2 := eq_of_beq hk
      have h2 : v2 = v := Option.some.inj h
      subst h1
      subst h2
      exact List.mem_cons_self _ _
    | false =>
      simp only [List.lookup, hk] at h
      exact List.mem_cons_of_mem _ (lookup_pair_mem rest k v h)

namespace Bitplanning

theorem lookupBit_shift (states : List String) (name : String) (pos : Nat)
    (h : lookupBit (stateBitsTable states) name = some pos) :
    ∃ i, i < states.length ∧ pos = 1 <<< i := by
  unfold lookupBit at h
  have hmem := lookup_pair_mem _ _ _ h
  rw [List.mem_reverse] at hmem
  unfold stateBitsTable at hmem
  simp only [List.mem_map] at hmem
  obtain ⟨⟨i, nm⟩, hp, heq⟩ := hmem
  injection heq with h1 h2
  refine ⟨i, ?_, h2.symm⟩
  have h3 := List.mem_enum_iff_getElem?.mp hp
  exact (List.getElem?_eq_some.mp h3).1

theorem lookupBit_lt (states : List String) (name : String) (pos : Nat)
    (h : lookupBit (stateBitsTable states) name = some pos) :
    pos < 2 ^ states.length := by
  obtain ⟨i, hi, hpos⟩ := lookupBit_shift states name pos h
  rw [hpos, Nat.one_shiftLeft]
  exact Nat.pow_lt_pow_right (by norm_num) hi

theorem addStates_valid (states : List String) :
    ∀ (l : List String) (st r : BitMask), st.valid states.length →
      addStates (stateBitsTable states) l st = .ok r → r.valid states.length
  | [], st, r, hst, h => Except.ok.inj h ▸ hst
  | s :: rest, st, r, hst, h => by
    simp only [addStates] at h
    cases hl : lookupBit (stateBitsTable states) (parsePolarity s).2 with
    | none =>
      simp only [hl] at h
      exact Except.noConfusion h
    | some pos =>
      simp only [hl] at h
      cases hadd : st.add pos (parsePolarity s).1 false with
      | none =>
        simp only [hadd] at h
        exact Except.noConfusion h
      | some st2 =>
        simp only [hadd] at h
        exact addStates_valid states rest st2 r
          (BitMask.valid_add hst (lookupBit_lt states _ pos hl) hadd) h

theorem applyConstraintThen_valid (states : List String) (constraint : RawConstraint) :
    ∀ (l : List String) (st r : BitMask), st.valid states.length →
      applyConstraintThen states.length (stateBitsTable states) constraint l st = .ok r →
      r.valid states.length
  | [], st, r, hst, h => Except.ok.inj h ▸ hst
  | s :: rest, st, r, hst, h => by
    simp only [applyConstraintThen] at h
    cases hl : lookupBit (stateBitsTable states) (parsePolarity s).2 with
    | none =>
      simp only [hl] at h
      exact Except.noConfusion h
    | some pos =>
      simp only [hl] at h
      cases hadd : st.add pos (parsePolarity s).1 false with
      | none =>
        simp only [hadd] at h
        exact Except.noConfusion h
      | some st2 =>
        simp only [hadd] at h
        exact applyConstraintThen_valid states constraint rest st2 r
          (BitMask.valid_add hst (lookupBit_lt states _ pos hl) hadd) h

theorem apply_constraints_valid (states : List String) :
    ∀ (cs : List RawConstraint) (st r : BitMask), st.valid states.length →
      apply_constraints states.length (stateBitsTable states) cs st = .ok r →
      r.valid states.length
  | [], st, r, hst, h => Except.ok.inj h ▸ hst
  | constraint :: rest, st, r, hst, h => by
    simp only [apply_constraints] at h
    cases hl : lookupBit (stateBitsTable states) (parsePolarity constraint.state).2 with
    | none =>
      simp only [hl] at h
      exact Except.noConfusion h
    | some state_bit =>
      simp only [hl] at h
      by_cases hk : st.known_and_matches state_bit (parsePolarity constraint.state).1 = true
      · rw [if_pos hk] at h
        cases ht : applyConstraintThen states.length (stateBitsTable states) constraint
            constraint.then_ st with
        | error e =>
          simp only [ht] at h
          exact Except.noConfusion h
        | ok st2 =>
          simp only [ht] at h
          exact apply_constraints_valid states rest st2 r
            (applyConstraintThen_valid states constraint constraint.then_ st st2 hst ht) h
      · rw [if_neg hk] at h
        exact apply_constraints_valid states rest st r hst h

theorem compileAction_ok_valid (states : List String) (constraints : List RawConstraint)
    (i : Nat) (raw : RawAction) (a : Action)
    (h : compileAction states.length (stateBitsTable states) constraints i raw = .ok a) :
    a.must_bits.valid states.length ∧ a.then_bits.valid states.length := by
  unfold compileAction at h
  simp only [bind, Except.bind] at h
  cases h0 : addStates (stateBitsTable states) raw.must (BitMask.null states.length) with
  | error e =>
    simp only [h0] at h
    exact Except.noConfusion h
  | ok must0 =>
    simp only [h0] at h
    cases h1 : apply_constraints states.length (stateBitsTable states) constraints must0 with
    | error e =>
      simp only [h1] at h
      exact Except.noConfusion h
    | ok must_bits =>
      simp only [h1] at h
      cases h2 : addStates (stateBitsTable states) raw.then_ (BitMask.null states.length) with
      | error e =>
        simp only [h2] at h
        exact Except.noConfusion h
      | ok then0 =>
        simp only [h2] at h
        cases h3 : apply_constraints states.length (stateBitsTable states) constraints then0 with
        | error e =>
          cases e with
          | incompatibleAdd =>
            simp only [h3] at h
            exact Except.noConfusion h
          | unknownState nm =>
            simp only [h3] at h
            exact Except.noConfusion h
          | incompatibleConstraints c st ts tm ao =>
            simp only [h3] at h
            exact Except.noConfusion h
        | ok then1 =>
          simp only [h3] at h
          have hq := Except.ok.inj h
          subst hq
          have hm0 := addStates_valid states raw.must (BitMask.null states.length) must0
            (BitMask.valid_null _) h0
          have hm := apply_constraints_valid states constraints must0 must_bits hm0 h1
          have ht0 := addStates_valid states raw.then_ (BitMask.null states.length) then0
            (BitMask.valid_null _) h2
          have ht1 := apply_constraints_valid states constraints then0 then1 ht0 h3
          exact ⟨hm, BitMask.valid_carry_forward ht1 hm⟩

theorem compileActions_ok_valid (states : List String) (constraints : List RawConstraint) :
    ∀ (i : Nat) (raws : List RawAction) (l : List Action),
      compileActions states.length (stateBitsTable states) constraints i raws = .ok l →
      ∀ a ∈ l, a.must_bits.valid states.length ∧ a.then_bits.valid states.length
  | _, [], l, h, a, ha => by
    have hq := Except.ok.inj h
    subst hq
    exact absurd ha (List.not_mem_nil a)
  | i, raw :: rest, l, h, a, ha => by
    simp only [compileActions, bind, Except.bind] at h
    cases hc1 : compileAction states.length (stateBitsTable states) constraints i raw with
    | error e =>
      simp only [hc1] at h
      exact Except.noConfusion h
    | ok a1 =>
      simp only [hc1] at h
      cases hc2 : compileActions states.length (stateBitsTable states) constraints
          (i + 1) rest with
      | error e =>
        simp only [hc2] at h
        exact Except.noConfusion h
      | ok rest2 =>
        simp only [hc2] at h
        have hq := Except.ok.inj h
        subst hq
        rcases List.mem_cons.mp ha with rfl | hmem
        · exact compileAction_ok_valid states constraints i raw a hc1
        · exact compileActions_ok_valid states constraints (i + 1) rest rest2 hc2 a hmem

theorem compile_WF (states0 : List String) (constraints : List RawConstraint)
    (actions0 : List RawAction) (d : Domain)
    (h : compile states0 constraints actions0 = .ok d) : d.WF := by
  unfold compile at h
  simp only [bind, Except.bind] at h
  split at h
  · exact Except.noConfusion h
  · rename_i compiled hca
    have hq := Except.ok.inj h
    subst hq
    unfold Domain.WF
    intro a ha
    exact compileActions_ok_valid
      (sortListBy strLe (if states0.isEmpty then impliedStates actions0 else states0))
      constraints 0 (sortListBy (fun x y => strLe x.action y.action) actions0)
      compiled hca a ha

theorem initState_OK (d : Domain) (start goal : BitMask) (s : SearchState)
    (hgl : goal.valid d.width) (h : initState d start goal = some s) :
    s.OK d.width := by
  unfold initState at h
  cases hmk : mkActionSequence [goalPool goal] (BitMask.null d.width) with
  | none =>
    rw [hmk] at h
    exact Option.noConfusion h
  | some blank =>
    simp only [hmk] at h
    cases hsc : Domain.score_accomplishment_pool blank goal start with
    | none =>
      rw [hsc] at h
      exact Option.noConfusion h
    | some sc =>
      simp only [hsc] at h
      have hq : (⟨[(blank, sc)], [], 0, 0⟩ : SearchState) = s := Option.some.inj h
      subst hq
      have hnv : (BitMask.null goal.width).valid d.width := by
        rw [hgl.1]
        exact BitMask.valid_null d.width
      have hpool : ∀ p ∈ [goalPool goal], ActionPool.OK d.width p := by
        intro p hp
        rw [List.mem_singleton.mp hp]
        exact ⟨hgl, hnv⟩
      have hblank := mkActionSequence_OK d.width [goalPool goal] (BitMask.null d.width)
        blank hpool rfl hmk
      refine ⟨?_, ?_, List.nodup_nil⟩
      · intro e he
        rw [List.mem_singleton.mp he]
        exact hblank
      · intro b hb
        exact absurd hb (List.not_mem_nil b)

theorem initState_potential (d : Domain) (start goal : BitMask) (s : SearchState)
    (h : initState d start goal = some s) : potential d s < fuelBound d := by
  obtain ⟨_, _, hsn, e, hf⟩ := initState_shape d start goal s h
  unfold potential fuelBound
  rw [hf, hsn]
  simp only [List.length_cons, List.length_nil, Nat.sub_zero]
  omega

theorem solveLoop_stable (d : Domain) (start goal : BitMask) :
    ∀ (fuel : Nat) (s : SearchState), solveLoop d start goal fuel s ≠ .fuelOut →
      ∀ fuel2, fuel ≤ fuel2 → solveLoop d start goal fuel2 s = solveLoop d start goal fuel s
  | 0, s, h, _, _ => absurd rfl h
  | fuel + 1, s, h, fuel2, hle => by
    obtain ⟨m, rfl⟩ : ∃ m, fuel2 = m + 1 := ⟨fuel2 - 1, by omega⟩
    simp only [solveLoop] at h ⊢
    cases hst : solveStep d start goal s with
    | next s2 =>
      simp only [hst] at h ⊢
      exact solveLoop_stable d start goal fuel s2 h m (by omega)
    | plan seq => simp only [hst]
    | noSolution => simp only [hst]
    | err => simp only [hst]

end Bitplanning

/-- Claim C2: the search loop of `Problem.solve` terminates on every compiled
domain, start state and goal: run with the fuel `fuelBound` the loop never
exhausts it (each iteration either drops an already-seen frontier element or
adds a fresh `must_bits` signature to the finite seen set), and any larger
fuel gives the same outcome, so `solve` is the limit of the iteration. -/
theorem c2_termination (states0 : List String) (constraints : List Bitplanning.RawConstraint)
    (actions0 : List Bitplanning.RawAction) (d : Bitplanning.Domain) (start goal : BitMask)
    (hcomp : Bitplanning.compile states0 constraints actions0 = .ok d)
    (hgl : goal.valid d.width) :
    Bitplanning.solve d start goal ≠ Bitplanning.SolveOutcome.fuelOut ∧
      ∀ fuel, Bitplanning.fuelBound d ≤ fuel →
        Bitplanning.solveWith d start goal fuel = Bitplanning.solve d start goal := by
  have hwf : d.WF := Bitplanning.compile_WF states0 constraints actions0 d hcomp
  have hmain : ∀ fuel, Bitplanning.fuelBound d ≤ fuel →
      Bitplanning.solveWith d start goal fuel ≠ Bitplanning.SolveOutcome.fuelOut := by
    intro fuel hle
    unfold Bitplanning.solveWith
    cases hi : Bitplanning.initState d start goal with
    | none =>
      simp only [hi]
      exact fun hc => Bitplanning.SolveOutcome.noConfusion hc
    | some s0 =>
      simp only [hi]
      have hok := Bitplanning.initState_OK d start goal s0 hgl hi
      have hpot := Bitplanning.initState_potential d start goal s0 hi
      exact Bitplanning.solveLoop_no_fuelOut d start goal hwf fuel s0 hok (by omega)
  refine ⟨hmain (Bitplanning.fuelBound d) (Nat.le_refl _), ?_⟩
  intro fuel hle
  unfold Bitplanning.solve Bitplanning.solveWith
  cases hi : Bitplanning.initState d start goal with
  | none => simp only [hi]
  | some s0 =>
    simp only [hi]
    have hno : Bitplanning.solveLoop d start goal (Bitplanning.fuelBound d) s0 ≠
        Bitplanning.SolveOutcome.fuelOut := by
      have h1 := hmain (Bitplanning.fuelBound d) (Nat.le_refl _)
      unfold Bitplanning.solveWith at h1
      simp only [hi] at h1
      exact h1
    exact Bitplanning.solveLoop_stable d start goal (Bitplanning.fuelBound d) s0 hno fuel hle

theorem c2_termination_witness :
    Bitplanning.compile ["s"] [] [] = .ok Bitplanning.dTriv ∧
      Bitplanning.goalTriv.valid Bitplanning.dTriv.width ∧
      Bitplanning.solve Bitplanning.dTriv Bitplanning.startTriv Bitplanning.goalTriv ≠
        Bitplanning.SolveOutcome.fuelOut ∧
      Bitplanning.solveWith Bitplanning.dTriv Bitplanning.startTriv Bitplanning.goalTriv 100 =
        Bitplanning.solve Bitplanning.dTriv Bitplanning.startTriv Bitplanning.goalTriv :=
  ⟨rfl, ⟨rfl, by decide, rfl⟩,
    (c2_termination ["s"] [] [] Bitplanning.dTriv Bitplanning.startTriv Bitplanning.goalTriv
      rfl ⟨rfl, by decide, rfl⟩).1,
    (c2_termination ["s"] [] [] Bitplanning.dTriv Bitplanning.startTriv Bitplanning.goalTriv
      rfl ⟨rfl, by decide, rfl⟩).2 100 (by decide)⟩
